import Mathlib

/-!
Verification development for the graph/ASP core of the `phasme` repository.

The public routines (`split_by_cc`, `clean`) are embedded from
`src/grasp/routines.py`.  The fact-line parser, graph builder, graph
serializer and the connected-component capability are not part of the
provided sources (`grasp.asp`, `grasp.build_graph`, `grasp.commons`,
`networkx` are absent); they are modelled from the specification, as
marked on each definition.
-/

namespace Phasme

/-! ### Plain tokens and a concrete total order on strings -/

/-- A character allowed in a bare (unquoted) identifier of the fact format. -/
def isPlainChar (c : Char) : Bool := c.isAlphanum || c = '_'

/-- A bare token: nonempty and made of plain characters only. -/
def plainTok (cs : List Char) : Bool := !cs.isEmpty && cs.all isPlainChar

/-- A string that is a bare token. -/
def plainStr (s : String) : Bool := plainTok s.data

/-- Lexicographic comparison of character lists by code point. -/
def charsLe : List Char → List Char → Bool
  | [], _ => true
  | _ :: _, [] => false
  | a :: as, b :: bs =>
    if a.toNat < b.toNat then true
    else if b.toNat < a.toNat then false
    else charsLe as bs

/-- Lexicographic order on strings, used to orient undirected edges. -/
def strLe (a b : String) : Bool := charsLe a.data b.data

theorem charsLe_total : ∀ (a b : List Char), charsLe a b = false → charsLe b a = true
  | [], _, h => by simp [charsLe] at h
  | _ :: _, [], _ => rfl
  | a :: as, b :: bs, h => by
    by_cases h1 : a.toNat < b.toNat
    · simp [charsLe, h1] at h
    · by_cases h2 : b.toNat < a.toNat
      · simp [charsLe, h2]
      · have h3 : charsLe as bs = false := by
          simpa [charsLe, h1, h2] using h
        have := charsLe_total as bs h3
        simp [charsLe, h1, h2, this]

theorem strLe_total (a b : String) (h : strLe a b = false) : strLe b a = true :=
  charsLe_total a.data b.data h

/-! ### Atoms, printing and the Fact Line Parser

Modelled from the spec: the Fact Line Parser (`grasp.asp` /
`grasp.build_graph` are not under `src/`).  One line of the fact format is
`predicate(arg1,...,argN).`; lines not matching the grammar are skipped. -/

/-- An atom of the fact format: a predicate name with its ordered arguments. -/
structure Atom where
  pred : String
  args : List String
deriving DecidableEq

/-- Comma-interleaving of raw argument tokens. -/
def intercalComma : List (List Char) → List Char
  | [] => []
  | [x] => x
  | x :: y :: t => x ++ ',' :: intercalComma (y :: t)

/-- Splitting a raw argument text at commas. -/
def splitComma : List Char → List (List Char)
  | [] => [[]]
  | c :: t =>
    if c = ',' then [] :: splitComma t
    else
      match splitComma t with
      | [] => [[c]]
      | h :: r => (c :: h) :: r

/-- Characters of the printed form of an atom. -/
def printAtomChars (a : Atom) : List Char :=
  a.pred.data ++ '(' :: (intercalComma (a.args.map String.data) ++ [')', '.'])

/-- Modelled from the spec: the serializer prints one fact per line. -/
def printAtom (a : Atom) : String := ⟨printAtomChars a⟩

/-- Final validation step of the line parser: all tokens must be bare. -/
def parseArgs (pcs : List Char) (toks : List (List Char)) : Option Atom :=
  if plainTok pcs && toks.all (fun t => plainTok t) then
    some ⟨⟨pcs⟩, toks.map (fun t => (⟨t⟩ : String))⟩
  else Option.none

/-- Recognize the closing `).` of a fact line (given the reversed tail). -/
def parseClose (pcs midRevAll : List Char) : Option Atom :=
  match midRevAll with
  | '.' :: ')' :: midRev => parseArgs pcs (splitComma midRev.reverse)
  | _ => Option.none

/-- Recognize the opening parenthesis after the predicate name. -/
def parseTail (pcs rest : List Char) : Option Atom :=
  match rest with
  | '(' :: rest2 => parseClose pcs rest2.reverse
  | _ => Option.none

/-- Modelled from the spec: the Fact Line Parser over the characters of a
line; a structurally malformed line yields `none` (skipped, lenient mode). -/
def parseChars (cs : List Char) : Option Atom :=
  parseTail (cs.takeWhile isPlainChar) (cs.dropWhile isPlainChar)

/-- Modelled from the spec: parse one line, or skip it. -/
def parseLine (s : String) : Option Atom := parseChars s.data

theorem splitComma_ne_nil (cs : List Char) : splitComma cs ≠ [] := by
  cases cs with
  | nil => simp [splitComma]
  | cons c t =>
    by_cases h : c = ','
    · simp [splitComma, h]
    · simp only [splitComma, if_neg h]
      cases splitComma t <;> simp

theorem splitComma_no_comma (cs : List Char) (h : ∀ c ∈ cs, c ≠ ',') :
    splitComma cs = [cs] := by
  induction cs with
  | nil => rfl
  | cons c t ih =>
    have hc : c ≠ ',' := h c (by simp)
    have ht : splitComma t = [t] := ih (fun x hx => h x (by simp [hx]))
    simp only [splitComma, if_neg hc, ht]

theorem splitComma_append (x t : List Char) (hx : ∀ c ∈ x, c ≠ ',') :
    splitComma (x ++ ',' :: t) = x :: splitComma t := by
  induction x with
  | nil => simp [splitComma]
  | cons c x' ih =>
    have hc : c ≠ ',' := hx c (by simp)
    have := ih (fun a ha => hx a (by simp [ha]))
    simp only [List.cons_append, splitComma, if_neg hc, List.append_eq, this]

theorem splitComma_intercal (parts : List (List Char))
    (h : ∀ p ∈ parts, ∀ c ∈ p, c ≠ ',') (hne : parts ≠ []) :
    splitComma (intercalComma parts) = parts := by
  induction parts with
  | nil => exact absurd rfl hne
  | cons x rest ih =>
    cases rest with
    | nil => exact splitComma_no_comma x (h x (by simp))
    | cons y t =>
      have h1 : splitComma (intercalComma (y :: t)) = y :: t :=
        ih (fun p hp => h p (by simp [hp])) (by simp)
      have h2 : ∀ c ∈ x, c ≠ ',' := h x (by simp)
      simp only [intercalComma, splitComma_append x _ h2, h1]

theorem plain_no_comma {cs : List Char} (h : plainTok cs = true) : ∀ c ∈ cs, c ≠ ',' := by
  intro c hc
  have hall : isPlainChar c = true := by
    have := (Bool.and_eq_true _ _).mp h |>.2
    exact (List.all_eq_true.mp this) c hc
  intro he
  subst he
  simp [isPlainChar] at hall

theorem takeWhile_plain_append (l r : List Char) (hl : ∀ c ∈ l, isPlainChar c = true) :
    (l ++ '(' :: r).takeWhile isPlainChar = l ∧
    (l ++ '(' :: r).dropWhile isPlainChar = '(' :: r := by
  induction l with
  | nil =>
    have : isPlainChar '(' = false := by decide
    simp [List.takeWhile_cons, List.dropWhile_cons, this]
  | cons c t ih =>
    have hc : isPlainChar c = true := hl c (by simp)
    have := ih (fun a ha => hl a (by simp [ha]))
    simp [List.takeWhile_cons, List.dropWhile_cons, hc, this.1, this.2]

/-- Printing a plain atom and re-parsing the line recovers the atom. -/
theorem parse_print (a : Atom) (hp : plainStr a.pred = true) (hargs : a.args ≠ [])
    (hall : ∀ s ∈ a.args, plainStr s = true) :
    parseLine (printAtom a) = some a := by
  obtain ⟨p, args⟩ := a
  have hpall : ∀ c ∈ p.data, isPlainChar c = true := by
    intro c hc
    have := (Bool.and_eq_true _ _).mp hp |>.2
    exact (List.all_eq_true.mp this) c hc
  have hdata : (printAtom ⟨p, args⟩).data = printAtomChars ⟨p, args⟩ := rfl
  show parseChars (printAtom ⟨p, args⟩).data = some ⟨p, args⟩
  rw [hdata]
  have hpc : printAtomChars ⟨p, args⟩ =
      p.data ++ '(' :: (intercalComma (args.map String.data) ++ [')', '.']) := rfl
  rw [hpc]
  have htd := takeWhile_plain_append p.data (intercalComma (args.map String.data) ++ [')', '.']) hpall
  unfold parseChars
  rw [htd.1, htd.2]
  have hstep1 : parseTail p.data ('(' :: (intercalComma (args.map String.data) ++ [')', '.'])) =
      parseClose p.data (intercalComma (args.map String.data) ++ [')', '.']).reverse := rfl
  rw [hstep1]
  have hrev : (intercalComma (args.map String.data) ++ [')', '.']).reverse =
      '.' :: ')' :: (intercalComma (args.map String.data)).reverse := by
    simp
  rw [hrev]
  have hstep2 : parseClose p.data ('.' :: ')' :: (intercalComma (args.map String.data)).reverse) =
      parseArgs p.data (splitComma (intercalComma (args.map String.data)).reverse.reverse) := rfl
  rw [hstep2, List.reverse_reverse]
  have hsplit : splitComma (intercalComma (args.map String.data)) = args.map String.data := by
    apply splitComma_intercal
    · intro pt hpt
      obtain ⟨s, hs, rfl⟩ := List.mem_map.mp hpt
      exact plain_no_comma (hall s hs)
    · simpa using hargs
  rw [hsplit]
  have hptok : plainTok p.data = true := hp
  have hatok : (args.map String.data).all (fun t => plainTok t) = true := by
    rw [List.all_eq_true]
    intro t ht
    obtain ⟨s, hs, rfl⟩ := List.mem_map.mp ht
    exact hall s hs
  unfold parseArgs
  rw [hptok, hatok]
  simp only [List.map_map, Bool.and_self, if_true]
  have hid : ((fun t => (⟨t⟩ : String)) ∘ String.data) = id := funext fun _ => rfl
  rw [hid, List.map_id]

/-- Every atom produced by the line parser is made of bare tokens. -/
theorem parseLine_plain (s : String) (a : Atom) (h : parseLine s = some a) :
    plainStr a.pred = true ∧ a.args ≠ [] ∧ ∀ x ∈ a.args, plainStr x = true := by
  unfold parseLine parseChars parseTail at h
  split at h
  case h_2 => exact absurd h (by simp)
  case h_1 rest2 heq =>
    unfold parseClose at h
    split at h
    case h_2 => exact absurd h (by simp)
    case h_1 midRev heq2 =>
      unfold parseArgs at h
      split at h
      case isFalse => exact absurd h (by simp)
      case isTrue hcond =>
        have hcond' := (Bool.and_eq_true _ _).mp hcond
        have ha : a = ⟨⟨s.data.takeWhile isPlainChar⟩,
            (splitComma midRev.reverse).map (fun t => (⟨t⟩ : String))⟩ := by
          exact ((Option.some.injEq _ _).mp h.symm)
        subst ha
        refine ⟨hcond'.1, ?_, ?_⟩
        · simp only [ne_eq, List.map_eq_nil_iff]
          exact splitComma_ne_nil _
        · intro x hx
          obtain ⟨t, ht, rfl⟩ := List.mem_map.mp hx
          exact (List.all_eq_true.mp hcond'.2) t ht

/-! ### The Graph data model and the Graph Builder

Modelled from the spec (`grasp.build_graph` is not under `src/`): a graph is
a node list (insertion order, duplicate-free), an edge list of canonically
oriented unordered pairs, and attribute stores for nodes and edges. -/

/-- The central graph entity. -/
structure Graph where
  nodes : List String
  edges : List (String × String)
  nattrs : List (String × String × List String)
  eattrs : List ((String × String) × String × List String)
deriving DecidableEq

/-- The empty graph, start of every build. -/
def emptyGraph : Graph := ⟨[], [], [], []⟩

/-- Canonical orientation of an undirected edge: `(a,b)` and `(b,a)` denote
the same edge and are stored with the lexicographically smaller end first. -/
def canonEdge (x y : String) : String × String :=
  if strLe x y = true then (x, y) else (y, x)

/-- Add a node if absent (nodes are created implicitly on first mention). -/
def addNode (g : Graph) (n : String) : Graph :=
  if n ∈ g.nodes then g else { g with nodes := g.nodes ++ [n] }

/-- Add an undirected edge, creating both end nodes if absent. -/
def addEdge (g : Graph) (x y : String) : Graph :=
  if canonEdge x y ∈ g.edges then addNode (addNode g x) y
  else { addNode (addNode g x) y with
         edges := (addNode (addNode g x) y).edges ++ [canonEdge x y] }

/-- Update the node-attribute store at key `(x, p)` (mapping semantics:
an existing entry is overwritten in place, else the entry is appended). -/
def upsertN : List (String × String × List String) → String → String → List String →
    List (String × String × List String)
  | [], x, p, vs => [(x, p, vs)]
  | a :: t, x, p, vs =>
    if a.1 = x ∧ a.2.1 = p then (x, p, vs) :: t else a :: upsertN t x p vs

/-- Update the edge-attribute store at key `(e, p)`. -/
def upsertE : List ((String × String) × String × List String) → (String × String) → String →
    List String → List ((String × String) × String × List String)
  | [], e, p, vs => [(e, p, vs)]
  | a :: t, e, p, vs =>
    if a.1 = e ∧ a.2.1 = p then (e, p, vs) :: t else a :: upsertE t e p vs

/-- Attach a node attribute, creating the owning node if absent. -/
def addNAttr (g : Graph) (x p : String) (vs : List String) : Graph :=
  { addNode g x with nattrs := upsertN (addNode g x).nattrs x p vs }

/-- Attach an edge attribute to an existing edge. -/
def addEAttr (g : Graph) (e : String × String) (p : String) (vs : List String) : Graph :=
  { g with eattrs := upsertE g.eattrs e p vs }

/-- Modelled from the spec: one step of the Graph Builder.  An atom whose
predicate is the configured edge predicate and has exactly two arguments is
an edge; an atom with exactly one argument declares a node; any other atom
is an attribute, attached to the edge formed by its first two arguments if
that edge exists, else to the node named by its first argument. -/
def addAtom (P : String) (g : Graph) (a : Atom) : Graph :=
  match a.args with
  | [] => g
  | [x] => addNode g x
  | x :: y :: rest =>
    if a.pred = P ∧ rest = [] then addEdge g x y
    else if canonEdge x y ∈ g.edges then addEAttr g (canonEdge x y) a.pred rest
    else addNAttr g x a.pred (y :: rest)

/-- Modelled from the spec: the Graph Builder folds the atom stream. -/
def buildGraph (atoms : List Atom) (P : String) : Graph :=
  atoms.foldl (addAtom P) emptyGraph

/-- Modelled from the spec: `grasp.build_graph.graph_from_file`, reading a
line-oriented resource (given here as its list of lines). -/
def graph_from_lines (lines : List String) (P : String) : Graph :=
  buildGraph (lines.filterMap parseLine) P

/-! ### The Graph Serializer

Modelled from the spec (`grasp.asp.asp_from_graph` is not under `src/`):
nodes with no attributes and no incident edges are emitted as unary facts,
every edge exactly once, and every attribute as its own fact line. -/

/-- Whether a node has no incident edge and owns no attribute. -/
def isoFree (edges : List (String × String)) (nattrs : List (String × String × List String))
    (n : String) : Bool :=
  !(edges.any (fun e => e.1 = n || e.2 = n)) && !(nattrs.any (fun a => a.1 = n))

/-- The nodes emitted as unary facts, in node (insertion) order. -/
def isolatedNodes (g : Graph) : List String :=
  g.nodes.filter (isoFree g.edges g.nattrs)

/-- Unary fact declaring an isolated node. -/
def nodeFact (n : String) : Atom := ⟨"node", [n]⟩

/-- Binary edge fact under the output edge predicate. -/
def edgeFact (P : String) (e : String × String) : Atom := ⟨P, [e.1, e.2]⟩

/-- Node-attribute fact: predicate is the attribute name, first argument the
owning node, remaining arguments the value tuple. -/
def nattrFact (a : String × String × List String) : Atom := ⟨a.2.1, a.1 :: a.2.2⟩

/-- Edge-attribute fact: first two arguments are the owning edge. -/
def eattrFact (a : (String × String) × String × List String) : Atom :=
  ⟨a.2.1, a.1.1 :: a.1.2 :: a.2.2⟩

/-- Modelled from the spec: the serializer's deterministic atom sequence. -/
def serializeAtoms (g : Graph) (P : String) : List Atom :=
  (isolatedNodes g).map nodeFact ++ g.edges.map (edgeFact P) ++
    g.nattrs.map nattrFact ++ g.eattrs.map eattrFact

/-- Modelled from the spec: `grasp.asp.asp_from_graph`, the serialized lines. -/
def asp_from_graph (g : Graph) (P : String) : List String :=
  (serializeAtoms g P).map printAtom

/-! ### Invariants of built graphs -/

/-- Structural invariant maintained by the Graph Builder: duplicate-free
canonical stores whose cross references exist, with bare tokens throughout,
and no attribute whose own fact line would parse as an edge fact under `P`. -/
def Inv (P : String) (g : Graph) : Prop :=
  g.nodes.Nodup ∧
  (∀ n ∈ g.nodes, plainStr n = true) ∧
  g.edges.Nodup ∧
  (∀ e ∈ g.edges, strLe e.1 e.2 = true ∧ e.1 ∈ g.nodes ∧ e.2 ∈ g.nodes ∧
    plainStr e.1 = true ∧ plainStr e.2 = true) ∧
  (g.nattrs.map (fun a => (a.1, a.2.1))).Nodup ∧
  (∀ a ∈ g.nattrs, a.1 ∈ g.nodes ∧ a.2.2 ≠ [] ∧ ¬(a.2.1 = P ∧ a.2.2.length = 1) ∧
    plainStr a.2.1 = true ∧ ∀ v ∈ a.2.2, plainStr v = true) ∧
  (g.eattrs.map (fun a => (a.1, a.2.1))).Nodup ∧
  (∀ a ∈ g.eattrs, a.1 ∈ g.edges ∧ ¬(a.2.1 = P ∧ a.2.2 = []) ∧
    plainStr a.2.1 = true ∧ ∀ v ∈ a.2.2, plainStr v = true)

instance (P : String) (g : Graph) : Decidable (Inv P g) := by
  unfold Inv
  infer_instance

/-- No node attribute may pair its owner with its first value into an
existing edge: such a fact line would be re-parsed as an edge attribute. -/
def collisionFree (g : Graph) : Prop :=
  ∀ a ∈ g.nattrs, ∀ b ∈ a.2.2.take 1, canonEdge a.1 b ∉ g.edges

instance (g : Graph) : Decidable (collisionFree g) := by
  unfold collisionFree
  infer_instance

/-- A graph in serializable canonical form for edge predicate `P`. -/
def wellFormed (P : String) (g : Graph) : Prop :=
  Inv P g ∧ collisionFree g ∧ plainStr P = true

instance (P : String) (g : Graph) : Decidable (wellFormed P g) := by
  unfold wellFormed
  infer_instance

theorem canonEdge_cases (x y : String) :
    canonEdge x y = (x, y) ∨ canonEdge x y = (y, x) := by
  unfold canonEdge
  split <;> simp

theorem canonEdge_strLe (x y : String) :
    strLe (canonEdge x y).1 (canonEdge x y).2 = true := by
  unfold canonEdge
  by_cases h : strLe x y = true
  · simp [h]
  · have := strLe_total x y (Bool.eq_false_iff.mpr h ▸ (by simpa using h))
    simp [h, this]

theorem canonEdge_of_strLe {x y : String} (h : strLe x y = true) :
    canonEdge x y = (x, y) := by
  simp [canonEdge, h]

theorem addNode_edges (g : Graph) (n : String) : (addNode g n).edges = g.edges := by
  unfold addNode
  split <;> rfl

theorem addNode_nattrs (g : Graph) (n : String) : (addNode g n).nattrs = g.nattrs := by
  unfold addNode
  split <;> rfl

theorem addNode_eattrs (g : Graph) (n : String) : (addNode g n).eattrs = g.eattrs := by
  unfold addNode
  split <;> rfl

theorem addNode_nodes_sub (g : Graph) (n : String) : g.nodes ⊆ (addNode g n).nodes := by
  unfold addNode
  split
  · exact fun _ h => h
  · exact fun x hx => List.mem_append_left _ hx

theorem mem_addNode_self (g : Graph) (n : String) : n ∈ (addNode g n).nodes := by
  unfold addNode
  split
  case isTrue h => exact h
  case isFalse h => exact List.mem_append_right _ (by simp)

theorem mem_addNode_cases (g : Graph) (n : String) :
    ∀ x ∈ (addNode g n).nodes, x ∈ g.nodes ∨ x = n := by
  unfold addNode
  split
  · exact fun x hx => Or.inl hx
  · intro x hx
    rcases List.mem_append.mp hx with h | h
    · exact Or.inl h
    · exact Or.inr (by simpa using h)

theorem nodup_append_singleton {α : Type} {l : List α} {a : α} (h1 : l.Nodup)
    (h2 : a ∉ l) : (l ++ [a]).Nodup := by
  induction l with
  | nil => simp
  | cons b t ih =>
    have hbt : b ∉ t := (List.nodup_cons.mp h1).1
    have hba : b ≠ a := fun h => h2 (h ▸ List.mem_cons_self _ _)
    refine List.nodup_cons.mpr ⟨?_, ih (List.nodup_cons.mp h1).2 (fun h => h2 (List.mem_cons_of_mem _ h))⟩
    intro hmem
    rcases List.mem_append.mp hmem with h | h
    · exact hbt h
    · exact hba (by simpa using h)

theorem addNode_inv {P : String} {g : Graph} {n : String} (hg : Inv P g)
    (hn : plainStr n = true) : Inv P (addNode g n) := by
  obtain ⟨h1, h2, h3, h4, h5, h6, h7, h8⟩ := hg
  by_cases hmem : n ∈ g.nodes
  · rw [show addNode g n = g from by simp [addNode, hmem]]
    exact ⟨h1, h2, h3, h4, h5, h6, h7, h8⟩
  · rw [show addNode g n = { g with nodes := g.nodes ++ [n] } from by simp [addNode, hmem]]
    refine ⟨nodup_append_singleton h1 hmem, ?_, h3, ?_, h5, ?_, h7, h8⟩
    · intro m hm
      rcases List.mem_append.mp hm with h | h
      · exact h2 m h
      · have : m = n := by simpa using h
        exact this ▸ hn
    · intro e he
      obtain ⟨he1, he2, he3, he4, he5⟩ := h4 e he
      exact ⟨he1, List.mem_append_left _ he2, List.mem_append_left _ he3, he4, he5⟩
    · intro a ha
      obtain ⟨ha1, ha2⟩ := h6 a ha
      exact ⟨List.mem_append_left _ ha1, ha2⟩

theorem addEdge_nattrs (g : Graph) (x y : String) : (addEdge g x y).nattrs = g.nattrs := by
  unfold addEdge
  split <;> simp [addNode_nattrs]

theorem addEdge_eattrs (g : Graph) (x y : String) : (addEdge g x y).eattrs = g.eattrs := by
  unfold addEdge
  split <;> simp [addNode_eattrs]

theorem addEdge_nodes_sub (g : Graph) (x y : String) : g.nodes ⊆ (addEdge g x y).nodes := by
  unfold addEdge
  have hsub : g.nodes ⊆ (addNode (addNode g x) y).nodes :=
    fun a ha => addNode_nodes_sub _ _ (addNode_nodes_sub _ _ ha)
  split
  · exact hsub
  · exact hsub

theorem addEdge_edges_sub (g : Graph) (x y : String) : g.edges ⊆ (addEdge g x y).edges := by
  have hE : (addNode (addNode g x) y).edges = g.edges := by
    rw [addNode_edges, addNode_edges]
  unfold addEdge
  split
  case isTrue => rw [hE]; exact fun _ h => h
  case isFalse => intro e he; exact List.mem_append_left _ (hE ▸ he)

theorem mem_addEdge (g : Graph) (x y : String) : canonEdge x y ∈ (addEdge g x y).edges := by
  have hE : (addNode (addNode g x) y).edges = g.edges := by
    rw [addNode_edges, addNode_edges]
  unfold addEdge
  split
  case isTrue h => rw [hE]; exact h
  case isFalse h => exact List.mem_append_right _ (by simp)

theorem addEdge_edges_cases (g : Graph) (x y : String) :
    ∀ e ∈ (addEdge g x y).edges, e ∈ g.edges ∨ e = canonEdge x y := by
  have hE : (addNode (addNode g x) y).edges = g.edges := by
    rw [addNode_edges, addNode_edges]
  unfold addEdge
  split
  case isTrue h => intro e he; exact Or.inl (hE ▸ he)
  case isFalse h =>
    intro e he
    rcases List.mem_append.mp (show e ∈ (addNode (addNode g x) y).edges ++ [canonEdge x y] from he) with h1 | h1
    · exact Or.inl (hE ▸ h1)
    · exact Or.inr (by simpa using h1)

theorem addEdge_inv {P : String} {g : Graph} {x y : String} (hg : Inv P g)
    (hx : plainStr x = true) (hy : plainStr y = true) : Inv P (addEdge g x y) := by
  have hg1 : Inv P (addNode (addNode g x) y) := addNode_inv (addNode_inv hg hx) hy
  have hxmem : x ∈ (addNode (addNode g x) y).nodes :=
    addNode_nodes_sub _ _ (mem_addNode_self g x)
  have hymem : y ∈ (addNode (addNode g x) y).nodes := mem_addNode_self _ y
  have hE : (addNode (addNode g x) y).edges = g.edges := by
    rw [addNode_edges, addNode_edges]
  obtain ⟨h1, h2, h3, h4, h5, h6, h7, h8⟩ := hg1
  unfold addEdge
  by_cases hmem : canonEdge x y ∈ g.edges
  · rw [if_pos hmem]
    exact ⟨h1, h2, h3, h4, h5, h6, h7, h8⟩
  · rw [if_neg hmem]
    refine ⟨h1, h2, ?_, ?_, h5, h6, h7, ?_⟩
    · rw [hE]
      exact nodup_append_singleton (hE ▸ h3) hmem
    · intro e he
      rcases List.mem_append.mp
        (show e ∈ (addNode (addNode g x) y).edges ++ [canonEdge x y] from he) with h | h
      · exact h4 e h
      · have he' : e = canonEdge x y := by simpa using h
        subst he'
        have hs := canonEdge_strLe x y
        rcases canonEdge_cases x y with hc | hc <;> rw [hc] at hs ⊢
        · exact ⟨hs, hxmem, hymem, hx, hy⟩
        · exact ⟨hs, hymem, hxmem, hy, hx⟩
    · intro a ha
      obtain ⟨ha1, ha2⟩ := h8 a ha
      exact ⟨List.mem_append_left _ ha1, ha2⟩

theorem upsertN_mem (l : List (String × String × List String)) (x p : String)
    (vs : List String) : ∀ b ∈ upsertN l x p vs, b ∈ l ∨ b = (x, p, vs) := by
  induction l with
  | nil => intro b hb; simp only [upsertN] at hb; exact Or.inr (by simpa using hb)
  | cons a t ih =>
    intro b hb
    simp only [upsertN] at hb
    split at hb
    · rcases List.mem_cons.mp hb with h | h
      · exact Or.inr h
      · exact Or.inl (List.mem_cons_of_mem _ h)
    · rcases List.mem_cons.mp hb with h | h
      · exact Or.inl (h ▸ List.mem_cons_self _ _)
      · rcases ih b h with h2 | h2
        · exact Or.inl (List.mem_cons_of_mem _ h2)
        · exact Or.inr h2

theorem upsertN_keys_present (l : List (String × String × List String)) (x p : String)
    (vs : List String) (h : (x, p) ∈ l.map (fun a => (a.1, a.2.1))) :
    (upsertN l x p vs).map (fun a => (a.1, a.2.1)) = l.map (fun a => (a.1, a.2.1)) := by
  induction l with
  | nil => simp at h
  | cons a t ih =>
    simp only [upsertN]
    split
    case isTrue hc => simp [hc.1, hc.2]
    case isFalse hc =>
      have h' : (x, p) ∈ t.map (fun a => (a.1, a.2.1)) := by
        rw [List.map_cons] at h
        rcases List.mem_cons.mp h with h1 | h1
        · obtain ⟨hx1, hp1⟩ := (Prod.mk.injEq _ _ _ _).mp h1
          exact absurd ⟨hx1.symm, hp1.symm⟩ hc
        · exact h1
      simp [ih h']

theorem upsertN_keys_absent (l : List (String × String × List String)) (x p : String)
    (vs : List String) (h : (x, p) ∉ l.map (fun a => (a.1, a.2.1))) :
    upsertN l x p vs = l ++ [(x, p, vs)] := by
  induction l with
  | nil => rfl
  | cons a t ih =>
    simp only [upsertN]
    split
    case isTrue hc =>
      exact absurd (by simp [hc.1, hc.2]) h
    case isFalse hc =>
      have h' : (x, p) ∉ t.map (fun a => (a.1, a.2.1)) := by
        intro hmem
        exact h (by simp [hmem])
      simp [ih h']

theorem upsertE_mem (l : List ((String × String) × String × List String))
    (e : String × String) (p : String) (vs : List String) :
    ∀ b ∈ upsertE l e p vs, b ∈ l ∨ b = (e, p, vs) := by
  induction l with
  | nil => intro b hb; simp only [upsertE] at hb; exact Or.inr (by simpa using hb)
  | cons a t ih =>
    intro b hb
    simp only [upsertE] at hb
    split at hb
    · rcases List.mem_cons.mp hb with h | h
      · exact Or.inr h
      · exact Or.inl (List.mem_cons_of_mem _ h)
    · rcases List.mem_cons.mp hb with h | h
      · exact Or.inl (h ▸ List.mem_cons_self _ _)
      · rcases ih b h with h2 | h2
        · exact Or.inl (List.mem_cons_of_mem _ h2)
        · exact Or.inr h2

theorem upsertE_keys_present (l : List ((String × String) × String × List String))
    (e : String × String) (p : String) (vs : List String)
    (h : (e, p) ∈ l.map (fun a => (a.1, a.2.1))) :
    (upsertE l e p vs).map (fun a => (a.1, a.2.1)) = l.map (fun a => (a.1, a.2.1)) := by
  induction l with
  | nil => simp at h
  | cons a t ih =>
    simp only [upsertE]
    split
    case isTrue hc => simp [hc.1, hc.2]
    case isFalse hc =>
      have h' : (e, p) ∈ t.map (fun a => (a.1, a.2.1)) := by
        rw [List.map_cons] at h
        rcases List.mem_cons.mp h with h1 | h1
        · obtain ⟨hx1, hp1⟩ := (Prod.mk.injEq _ _ _ _).mp h1
          exact absurd ⟨hx1.symm, hp1.symm⟩ hc
        · exact h1
      simp [ih h']

theorem upsertE_keys_absent (l : List ((String × String) × String × List String))
    (e : String × String) (p : String) (vs : List String)
    (h : (e, p) ∉ l.map (fun a => (a.1, a.2.1))) :
    upsertE l e p vs = l ++ [(e, p, vs)] := by
  induction l with
  | nil => rfl
  | cons a t ih =>
    simp only [upsertE]
    split
    case isTrue hc =>
      exact absurd (by simp [hc.1, hc.2]) h
    case isFalse hc =>
      have h' : (e, p) ∉ t.map (fun a => (a.1, a.2.1)) := by
        intro hmem
        exact h (by simp [hmem])
      simp [ih h']

theorem upsertN_keys_nodup (l : List (String × String × List String)) (x p : String)
    (vs : List String) (h : (l.map (fun a => (a.1, a.2.1))).Nodup) :
    ((upsertN l x p vs).map (fun a => (a.1, a.2.1))).Nodup := by
  by_cases hk : (x, p) ∈ l.map (fun a => (a.1, a.2.1))
  · rw [upsertN_keys_present l x p vs hk]
    exact h
  · rw [upsertN_keys_absent l x p vs hk, List.map_append]
    exact nodup_append_singleton h (by simpa using hk)

theorem upsertE_keys_nodup (l : List ((String × String) × String × List String))
    (e : String × String) (p : String) (vs : List String)
    (h : (l.map (fun a => (a.1, a.2.1))).Nodup) :
    ((upsertE l e p vs).map (fun a => (a.1, a.2.1))).Nodup := by
  by_cases hk : (e, p) ∈ l.map (fun a => (a.1, a.2.1))
  · rw [upsertE_keys_present l e p vs hk]
    exact h
  · rw [upsertE_keys_absent l e p vs hk, List.map_append]
    exact nodup_append_singleton h (by simpa using hk)

theorem addNAttr_inv {P : String} {g : Graph} {x p : String} {vs : List String}
    (hg : Inv P g) (hx : plainStr x = true) (hp : plainStr p = true)
    (hvs : vs ≠ []) (hlen : ¬(p = P ∧ vs.length = 1))
    (hvp : ∀ v ∈ vs, plainStr v = true) : Inv P (addNAttr g x p vs) := by
  have hg1 : Inv P (addNode g x) := addNode_inv hg hx
  obtain ⟨h1, h2, h3, h4, h5, h6, h7, h8⟩ := hg1
  have hxmem : x ∈ (addNode g x).nodes := mem_addNode_self g x
  refine ⟨h1, h2, h3, h4, ?_, ?_, h7, ?_⟩
  · exact upsertN_keys_nodup _ x p vs h5
  · intro a ha
    rcases upsertN_mem _ x p vs a ha with h | h
    · exact h6 a h
    · subst h
      exact ⟨hxmem, hvs, hlen, hp, hvp⟩
  · intro a ha
    exact h8 a ha

theorem addEAttr_inv {P : String} {g : Graph} {e : String × String} {p : String}
    {vs : List String} (hg : Inv P g) (he : e ∈ g.edges) (hp : plainStr p = true)
    (hne : ¬(p = P ∧ vs = [])) (hvp : ∀ v ∈ vs, plainStr v = true) :
    Inv P (addEAttr g e p vs) := by
  obtain ⟨h1, h2, h3, h4, h5, h6, h7, h8⟩ := hg
  refine ⟨h1, h2, h3, h4, h5, h6, ?_, ?_⟩
  · exact upsertE_keys_nodup _ e p vs h7
  · intro a ha
    rcases upsertE_mem _ e p vs a ha with h | h
    · exact h8 a h
    · subst h
      exact ⟨he, hne, hp, hvp⟩

/-- Each builder step preserves the structural invariant, for atoms made of
bare tokens (which is all the line parser can produce). -/
theorem addAtom_inv {P : String} {g : Graph} {a : Atom} (hg : Inv P g)
    (hp : plainStr a.pred = true) (hargs : ∀ s ∈ a.args, plainStr s = true) :
    Inv P (addAtom P g a) := by
  obtain ⟨p, args⟩ := a
  match args, hargs with
  | [], _ => exact hg
  | [x], hargs =>
    exact addNode_inv hg (hargs x (by simp))
  | x :: y :: rest, hargs =>
    show Inv P (if p = P ∧ rest = [] then addEdge g x y
      else if canonEdge x y ∈ g.edges then addEAttr g (canonEdge x y) p rest
      else addNAttr g x p (y :: rest))
    have hx : plainStr x = true := hargs x (by simp)
    have hy : plainStr y = true := hargs y (by simp)
    by_cases hc1 : p = P ∧ rest = []
    · rw [if_pos hc1]
      exact addEdge_inv hg hx hy
    · rw [if_neg hc1]
      by_cases hc2 : canonEdge x y ∈ g.edges
      · rw [if_pos hc2]
        refine addEAttr_inv hg hc2 hp ?_ ?_
        · intro hcontra
          exact hc1 ⟨hcontra.1, hcontra.2⟩
        · intro v hv
          exact hargs v (by simp [hv])
      · rw [if_neg hc2]
        refine addNAttr_inv hg hx hp (by simp) ?_ ?_
        · intro hcontra
          have : rest = [] := by
            have := hcontra.2
            simpa using this
          exact hc1 ⟨hcontra.1, this⟩
        · intro v hv
          rcases List.mem_cons.mp hv with h | h
          · exact h ▸ hy
          · exact hargs v (by simp [h])

theorem emptyGraph_inv (P : String) : Inv P emptyGraph := by
  refine ⟨?_, ?_, ?_, ?_, ?_, ?_, ?_, ?_⟩ <;> simp [emptyGraph]

theorem foldl_addAtom_inv (P : String) (atoms : List Atom) (g : Graph) (hg : Inv P g)
    (hatoms : ∀ a ∈ atoms, plainStr a.pred = true ∧ ∀ s ∈ a.args, plainStr s = true) :
    Inv P (atoms.foldl (addAtom P) g) := by
  induction atoms generalizing g with
  | nil => exact hg
  | cons a t ih =>
    have ha := hatoms a (by simp)
    exact ih _ (addAtom_inv hg ha.1 ha.2) (fun b hb => hatoms b (List.mem_cons_of_mem _ hb))

/-- Every graph built from a parsed resource satisfies the invariant. -/
theorem graph_from_lines_inv (lines : List String) (P : String) :
    Inv P (graph_from_lines lines P) := by
  unfold graph_from_lines buildGraph
  refine foldl_addAtom_inv P _ _ (emptyGraph_inv P) ?_
  intro a ha
  obtain ⟨s, _, hs⟩ := List.mem_filterMap.mp ha
  obtain ⟨hp, _, hargs⟩ := parseLine_plain s a hs
  exact ⟨hp, hargs⟩

/-! ### Rebuilding a serialized graph, stage by stage -/
theorem addNode_spec (g : Graph) (n : String) :
    ∃ ex : List String, (addNode g n).nodes = g.nodes ++ ex ∧
      (addNode g n).edges = g.edges ∧ (addNode g n).nattrs = g.nattrs ∧
      (addNode g n).eattrs = g.eattrs ∧
      (∀ z ∈ ex, z = n) ∧ n ∈ g.nodes ++ ex ∧
      (g.nodes.Nodup → (g.nodes ++ ex).Nodup) := by
  by_cases hmem : n ∈ g.nodes
  · exact ⟨[], by simp [addNode, hmem], by simp [addNode, hmem], by simp [addNode, hmem],
      by simp [addNode, hmem], by simp, by simpa using hmem, by simpa⟩
  · refine ⟨[n], by simp [addNode, hmem], by simp [addNode, hmem], by simp [addNode, hmem],
      by simp [addNode, hmem], by simp, by simp, ?_⟩
    intro h
    exact nodup_append_singleton h hmem

theorem addEdge_spec (g : Graph) (x y : String) (hxy : strLe x y = true)
    (hnew : (x, y) ∉ g.edges) :
    ∃ ex : List String, (addEdge g x y).nodes = g.nodes ++ ex ∧
      (addEdge g x y).edges = g.edges ++ [(x, y)] ∧
      (addEdge g x y).nattrs = g.nattrs ∧ (addEdge g x y).eattrs = g.eattrs ∧
      (∀ z ∈ ex, z = x ∨ z = y) ∧ x ∈ g.nodes ++ ex ∧ y ∈ g.nodes ++ ex ∧
      (g.nodes.Nodup → (g.nodes ++ ex).Nodup) := by
  obtain ⟨ex1, hn1, he1, ha1, hb1, hz1, hm1, hd1⟩ := addNode_spec g x
  obtain ⟨ex2, hn2, he2, ha2, hb2, hz2, hm2, hd2⟩ := addNode_spec (addNode g x) y
  rw [hn1] at hn2 hm2 hd2
  rw [he1] at he2
  rw [ha1] at ha2
  rw [hb1] at hb2
  have hcanon : canonEdge x y = (x, y) := canonEdge_of_strLe hxy
  have hcond : (canonEdge x y ∈ g.edges) = False := by
    rw [hcanon]
    simp [hnew]
  have hif : addEdge g x y =
      { addNode (addNode g x) y with
        edges := (addNode (addNode g x) y).edges ++ [canonEdge x y] } := by
    unfold addEdge
    rw [if_neg (by rw [hcanon]; exact hnew)]
  refine ⟨ex1 ++ ex2, ?_, ?_, ?_, ?_, ?_, ?_, ?_, ?_⟩
  · rw [hif]
    show (addNode (addNode g x) y).nodes = _
    rw [hn2, List.append_assoc]
  · rw [hif]
    show (addNode (addNode g x) y).edges ++ [canonEdge x y] = _
    rw [he2, hcanon]
  · rw [hif]
    show (addNode (addNode g x) y).nattrs = _
    rw [ha2]
  · rw [hif]
    show (addNode (addNode g x) y).eattrs = _
    rw [hb2]
  · intro z hz
    rcases List.mem_append.mp hz with h | h
    · exact Or.inl (hz1 z h)
    · exact Or.inr (hz2 z h)
  · rw [← List.append_assoc]
    rcases List.mem_append.mp hm1 with h | h
    · exact List.mem_append_left _ (List.mem_append_left _ h)
    · exact List.mem_append_left _ (List.mem_append_right _ h)
  · rw [← List.append_assoc]
    exact hm2
  · intro h
    rw [← List.append_assoc]
    exact hd2 (hd1 h)

theorem addNAttr_spec (g : Graph) (x p : String) (vs : List String)
    (hk : (x, p) ∉ g.nattrs.map (fun a => (a.1, a.2.1))) :
    ∃ ex : List String, (addNAttr g x p vs).nodes = g.nodes ++ ex ∧
      (addNAttr g x p vs).edges = g.edges ∧
      (addNAttr g x p vs).nattrs = g.nattrs ++ [(x, p, vs)] ∧
      (addNAttr g x p vs).eattrs = g.eattrs ∧
      (∀ z ∈ ex, z = x) ∧ x ∈ g.nodes ++ ex ∧
      (g.nodes.Nodup → (g.nodes ++ ex).Nodup) := by
  obtain ⟨ex1, hn1, he1, ha1, hb1, hz1, hm1, hd1⟩ := addNode_spec g x
  refine ⟨ex1, ?_, ?_, ?_, ?_, hz1, hm1, hd1⟩
  · show (addNode g x).nodes = _
    exact hn1
  · show (addNode g x).edges = _
    exact he1
  · show upsertN (addNode g x).nattrs x p vs = _
    rw [ha1, upsertN_keys_absent g.nattrs x p vs hk]
  · show (addNode g x).eattrs = _
    exact hb1

theorem addEAttr_spec (g : Graph) (e : String × String) (p : String) (vs : List String)
    (hk : (e, p) ∉ g.eattrs.map (fun a => (a.1, a.2.1))) :
    (addEAttr g e p vs).nodes = g.nodes ∧ (addEAttr g e p vs).edges = g.edges ∧
    (addEAttr g e p vs).nattrs = g.nattrs ∧
    (addEAttr g e p vs).eattrs = g.eattrs ++ [(e, p, vs)] := by
  refine ⟨rfl, rfl, rfl, ?_⟩
  show upsertE g.eattrs e p vs = _
  rw [upsertE_keys_absent g.eattrs e p vs hk]

/-- Stage 1: folding the unary node facts over a graph they are fresh for. -/
theorem foldl_nodeFacts (P : String) (ns : List String) (g0 : Graph)
    (h : ∀ n ∈ ns, n ∉ g0.nodes) (hN : ns.Nodup) :
    (List.foldl (addAtom P) g0 (ns.map nodeFact)).nodes = g0.nodes ++ ns ∧
    (List.foldl (addAtom P) g0 (ns.map nodeFact)).edges = g0.edges ∧
    (List.foldl (addAtom P) g0 (ns.map nodeFact)).nattrs = g0.nattrs ∧
    (List.foldl (addAtom P) g0 (ns.map nodeFact)).eattrs = g0.eattrs := by
  induction ns generalizing g0 with
  | nil => simp
  | cons n t ih =>
    have hred : addAtom P g0 (nodeFact n) = addNode g0 n := rfl
    have hnmem : n ∉ g0.nodes := h n (by simp)
    have hn1 : (addNode g0 n).nodes = g0.nodes ++ [n] := by simp [addNode, hnmem]
    have he1 : (addNode g0 n).edges = g0.edges := addNode_edges g0 n
    have ha1 : (addNode g0 n).nattrs = g0.nattrs := addNode_nattrs g0 n
    have hb1 : (addNode g0 n).eattrs = g0.eattrs := addNode_eattrs g0 n
    have hfresh : ∀ m ∈ t, m ∉ (addNode g0 n).nodes := by
      intro m hm hmem
      rw [hn1] at hmem
      rcases List.mem_append.mp hmem with h1 | h1
      · exact h m (List.mem_cons_of_mem _ hm) h1
      · have : m = n := by simpa using h1
        exact (List.nodup_cons.mp hN).1 (this ▸ hm)
    obtain ⟨ihn, ihe, iha, ihb⟩ := ih (addNode g0 n) hfresh hN.of_cons
    rw [List.map_cons, List.foldl_cons, hred]
    refine ⟨?_, ?_, ?_, ?_⟩
    · rw [ihn, hn1, List.append_assoc, List.singleton_append]
    · rw [ihe, he1]
    · rw [iha, ha1]
    · rw [ihb, hb1]

/-- Stage 2: folding the edge facts rebuilds exactly the edge list, adding
only end nodes. -/
theorem foldl_edgeFacts (P : String) (es : List (String × String)) (g0 : Graph)
    (hc : ∀ e ∈ es, strLe e.1 e.2 = true)
    (hnd : (g0.edges ++ es).Nodup) :
    ∃ extra : List String,
      (List.foldl (addAtom P) g0 (es.map (edgeFact P))).nodes = g0.nodes ++ extra ∧
      (List.foldl (addAtom P) g0 (es.map (edgeFact P))).edges = g0.edges ++ es ∧
      (List.foldl (addAtom P) g0 (es.map (edgeFact P))).nattrs = g0.nattrs ∧
      (List.foldl (addAtom P) g0 (es.map (edgeFact P))).eattrs = g0.eattrs ∧
      (∀ x ∈ extra, ∃ e ∈ es, x = e.1 ∨ x = e.2) ∧
      (∀ e ∈ es, e.1 ∈ g0.nodes ++ extra ∧ e.2 ∈ g0.nodes ++ extra) ∧
      (g0.nodes.Nodup → (g0.nodes ++ extra).Nodup) := by
  induction es generalizing g0 with
  | nil => exact ⟨[], by simp, by simp, by simp, by simp, by simp, by simp, by simp⟩
  | cons e t ih =>
    obtain ⟨x, y⟩ := e
    have hxy : strLe x y = true := hc (x, y) (by simp)
    have hnew : (x, y) ∉ g0.edges := by
      intro hmem
      exact ((List.nodup_append.mp hnd).2.2 hmem) (by simp)
    have hred : addAtom P g0 (edgeFact P (x, y)) = addEdge g0 x y := by
      show (if P = P ∧ ([] : List String) = [] then addEdge g0 x y
        else if canonEdge x y ∈ g0.edges then addEAttr g0 (canonEdge x y) P []
        else addNAttr g0 x P [y]) = addEdge g0 x y
      simp
    obtain ⟨ex0, hn0, he0, ha0, hb0, hz0, hmx, hmy, hd0⟩ := addEdge_spec g0 x y hxy hnew
    have hnd1 : ((addEdge g0 x y).edges ++ t).Nodup := by
      rw [he0, List.append_assoc, List.singleton_append]
      exact hnd
    obtain ⟨extra1, ihn, ihe, iha, ihb, horig1, hmem1, hnodup1⟩ :=
      ih (addEdge g0 x y) (fun e he => hc e (List.mem_cons_of_mem _ he)) hnd1
    rw [hn0] at ihn hmem1 hnodup1
    rw [he0] at ihe
    rw [ha0] at iha
    rw [hb0] at ihb
    rw [List.map_cons, List.foldl_cons, hred]
    refine ⟨ex0 ++ extra1, ?_, ?_, iha, ihb, ?_, ?_, ?_⟩
    · rw [ihn, List.append_assoc]
    · rw [ihe, List.append_assoc, List.singleton_append]
    · intro z hz
      rcases List.mem_append.mp hz with h | h
      · exact ⟨(x, y), by simp, hz0 z h⟩
      · obtain ⟨e, he, hor⟩ := horig1 z h
        exact ⟨e, List.mem_cons_of_mem _ he, hor⟩
    · intro e he
      rcases List.mem_cons.mp he with h | h
      · subst h
        constructor
        · rw [← List.append_assoc]
          rcases List.mem_append.mp hmx with h1 | h1
          · exact List.mem_append_left _ (List.mem_append_left _ h1)
          · exact List.mem_append_left _ (List.mem_append_right _ h1)
        · rw [← List.append_assoc]
          rcases List.mem_append.mp hmy with h1 | h1
          · exact List.mem_append_left _ (List.mem_append_left _ h1)
          · exact List.mem_append_left _ (List.mem_append_right _ h1)
      · have := hmem1 e h
        rw [← List.append_assoc]
        exact this
    · intro h
      rw [← List.append_assoc]
      exact hnodup1 (hd0 h)

/-- Stage 3: folding the node-attribute facts rebuilds exactly the
node-attribute store, adding only owner nodes. -/
theorem foldl_nattrFacts (P : String) (as : List (String × String × List String))
    (g0 : Graph)
    (hk : ((g0.nattrs ++ as).map (fun a => (a.1, a.2.1))).Nodup)
    (hv : ∀ a ∈ as, a.2.2 ≠ [])
    (hp : ∀ a ∈ as, ¬(a.2.1 = P ∧ a.2.2.length = 1))
    (hcol : ∀ a ∈ as, ∀ b ∈ a.2.2.take 1, canonEdge a.1 b ∉ g0.edges) :
    ∃ extra : List String,
      (List.foldl (addAtom P) g0 (as.map nattrFact)).nodes = g0.nodes ++ extra ∧
      (List.foldl (addAtom P) g0 (as.map nattrFact)).edges = g0.edges ∧
      (List.foldl (addAtom P) g0 (as.map nattrFact)).nattrs = g0.nattrs ++ as ∧
      (List.foldl (addAtom P) g0 (as.map nattrFact)).eattrs = g0.eattrs ∧
      (∀ x ∈ extra, ∃ a ∈ as, x = a.1) ∧
      (∀ a ∈ as, a.1 ∈ g0.nodes ++ extra) ∧
      (g0.nodes.Nodup → (g0.nodes ++ extra).Nodup) := by
  induction as generalizing g0 with
  | nil => exact ⟨[], by simp, by simp, by simp, by simp, by simp, by simp, by simp⟩
  | cons a rest ih =>
    obtain ⟨o, p, vs⟩ := a
    have hvs : vs ≠ [] := hv (o, p, vs) (by simp)
    obtain ⟨b, tl, rfl⟩ : ∃ b tl, vs = b :: tl := by
      cases vs with
      | nil => exact absurd rfl hvs
      | cons b tl => exact ⟨b, tl, rfl⟩
    have hc1 : ¬(p = P ∧ tl = []) := by
      intro hcc
      exact hp (o, p, b :: tl) (by simp) ⟨hcc.1, by simp [hcc.2]⟩
    have hc2 : canonEdge o b ∉ g0.edges :=
      hcol (o, p, b :: tl) (by simp) b (by simp)
    have hred : addAtom P g0 (nattrFact (o, p, b :: tl)) = addNAttr g0 o p (b :: tl) := by
      show (if p = P ∧ tl = [] then addEdge g0 o b
        else if canonEdge o b ∈ g0.edges then addEAttr g0 (canonEdge o b) p tl
        else addNAttr g0 o p (b :: tl)) = addNAttr g0 o p (b :: tl)
      rw [if_neg hc1, if_neg hc2]
    have hkey : (o, p) ∉ g0.nattrs.map (fun a => (a.1, a.2.1)) := by
      intro hmem
      have hdisj := (List.nodup_append.mp (by
        rw [← List.map_append]
        exact hk)).2.2
      exact hdisj hmem (by simp)
    obtain ⟨ex0, hn0, he0, ha0, hb0, hz0, hm0, hd0⟩ := addNAttr_spec g0 o p (b :: tl) hkey
    have hk1 : (((addNAttr g0 o p (b :: tl)).nattrs ++ rest).map (fun a => (a.1, a.2.1))).Nodup := by
      rw [ha0, List.append_assoc, List.singleton_append]
      exact hk
    have hcol1 : ∀ a ∈ rest, ∀ c ∈ a.2.2.take 1,
        canonEdge a.1 c ∉ (addNAttr g0 o p (b :: tl)).edges := by
      rw [he0]
      exact fun a ha => hcol a (List.mem_cons_of_mem _ ha)
    obtain ⟨extra1, ihn, ihe, iha, ihb, horig1, hmem1, hnodup1⟩ :=
      ih (addNAttr g0 o p (b :: tl)) hk1
        (fun a ha => hv a (List.mem_cons_of_mem _ ha))
        (fun a ha => hp a (List.mem_cons_of_mem _ ha)) hcol1
    rw [hn0] at ihn hmem1 hnodup1
    rw [he0] at ihe
    rw [ha0] at iha
    rw [hb0] at ihb
    rw [List.map_cons, List.foldl_cons, hred]
    refine ⟨ex0 ++ extra1, ?_, ihe, ?_, ihb, ?_, ?_, ?_⟩
    · rw [ihn, List.append_assoc]
    · rw [iha, List.append_assoc, List.singleton_append]
    · intro z hz
      rcases List.mem_append.mp hz with h | h
      · exact ⟨(o, p, b :: tl), by simp, hz0 z h⟩
      · obtain ⟨a, ha, hor⟩ := horig1 z h
        exact ⟨a, List.mem_cons_of_mem _ ha, hor⟩
    · intro a ha
      rcases List.mem_cons.mp ha with h | h
      · subst h
        rw [← List.append_assoc]
        rcases List.mem_append.mp hm0 with h1 | h1
        · exact List.mem_append_left _ (List.mem_append_left _ h1)
        · exact List.mem_append_left _ (List.mem_append_right _ h1)
      · have := hmem1 a h
        rw [← List.append_assoc]
        exact this
    · intro h
      rw [← List.append_assoc]
      exact hnodup1 (hd0 h)

/-- Stage 4: folding the edge-attribute facts rebuilds exactly the
edge-attribute store and touches nothing else. -/
theorem foldl_eattrFacts (P : String)
    (as : List ((String × String) × String × List String)) (g0 : Graph)
    (hk : ((g0.eattrs ++ as).map (fun a => (a.1, a.2.1))).Nodup)
    (he : ∀ a ∈ as, a.1 ∈ g0.edges ∧ strLe a.1.1 a.1.2 = true)
    (hp : ∀ a ∈ as, ¬(a.2.1 = P ∧ a.2.2 = [])) :
    (List.foldl (addAtom P) g0 (as.map eattrFact)).nodes = g0.nodes ∧
    (List.foldl (addAtom P) g0 (as.map eattrFact)).edges = g0.edges ∧
    (List.foldl (addAtom P) g0 (as.map eattrFact)).nattrs = g0.nattrs ∧
    (List.foldl (addAtom P) g0 (as.map eattrFact)).eattrs = g0.eattrs ++ as := by
  induction as generalizing g0 with
  | nil => simp
  | cons a rest ih =>
    obtain ⟨⟨x, y⟩, p, vs⟩ := a
    have hmemE : (x, y) ∈ g0.edges := (he ((x, y), p, vs) (by simp)).1
    have hxy : strLe x y = true := (he ((x, y), p, vs) (by simp)).2
    have hc1 : ¬(p = P ∧ vs = []) := hp ((x, y), p, vs) (by simp)
    have hcanon : canonEdge x y = (x, y) := canonEdge_of_strLe hxy
    have hred : addAtom P g0 (eattrFact ((x, y), p, vs)) = addEAttr g0 (x, y) p vs := by
      show (if p = P ∧ vs = [] then addEdge g0 x y
        else if canonEdge x y ∈ g0.edges then addEAttr g0 (canonEdge x y) p vs
        else addNAttr g0 x p (y :: vs)) = addEAttr g0 (x, y) p vs
      rw [if_neg hc1, if_pos (hcanon ▸ hmemE), hcanon]
    have hkey : ((x, y), p) ∉ g0.eattrs.map (fun a => (a.1, a.2.1)) := by
      intro hmem2
      have hdisj := (List.nodup_append.mp (by
        rw [← List.map_append]
        exact hk)).2.2
      exact hdisj hmem2 (by simp)
    obtain ⟨hn0, he0, ha0, hb0⟩ := addEAttr_spec g0 (x, y) p vs hkey
    have hk1 : (((addEAttr g0 (x, y) p vs).eattrs ++ rest).map (fun a => (a.1, a.2.1))).Nodup := by
      rw [hb0, List.append_assoc, List.singleton_append]
      exact hk
    have he1 : ∀ a ∈ rest, a.1 ∈ (addEAttr g0 (x, y) p vs).edges ∧ strLe a.1.1 a.1.2 = true := by
      rw [he0]
      exact fun a ha => he a (List.mem_cons_of_mem _ ha)
    obtain ⟨ihn, ihe, iha, ihb⟩ :=
      ih (addEAttr g0 (x, y) p vs) hk1 he1 (fun a ha => hp a (List.mem_cons_of_mem _ ha))
    rw [hn0] at ihn
    rw [he0] at ihe
    rw [ha0] at iha
    rw [hb0] at ihb
    rw [List.map_cons, List.foldl_cons, hred]
    refine ⟨ihn, ihe, iha, ?_⟩
    rw [ihb, List.append_assoc, List.singleton_append]

/-! ### The serializer round trip -/

/-- All atoms emitted by the serializer of a well-formed graph are plain. -/
theorem serialize_plain (g : Graph) (P : String) (h : wellFormed P g) :
    ∀ a ∈ serializeAtoms g P, plainStr a.pred = true ∧ a.args ≠ [] ∧
      ∀ s ∈ a.args, plainStr s = true := by
  obtain ⟨⟨h1, h2, h3, h4, h5, h6, h7, h8⟩, hcol, hP⟩ := h
  intro a ha
  unfold serializeAtoms at ha
  rcases List.mem_append.mp ha with ha' | hd
  · rcases List.mem_append.mp ha' with ha'' | hc
    · rcases List.mem_append.mp ha'' with hn | he
      · obtain ⟨n, hn2, rfl⟩ := List.mem_map.mp hn
        have hnode : n ∈ g.nodes := List.mem_of_mem_filter hn2
        refine ⟨?_, by simp [nodeFact], ?_⟩
        · show plainStr "node" = true
          decide
        · intro s hs
          have : s = n := by simpa [nodeFact] using hs
          exact this ▸ h2 n hnode
      · obtain ⟨e, he2, rfl⟩ := List.mem_map.mp he
        obtain ⟨_, _, _, hp1, hp2⟩ := h4 e he2
        refine ⟨hP, by simp [edgeFact], ?_⟩
        intro s hs
        rcases (by simpa [edgeFact] using hs : s = e.1 ∨ s = e.2) with h | h
        · exact h ▸ hp1
        · exact h ▸ hp2
    · obtain ⟨a', ha2, rfl⟩ := List.mem_map.mp hc
      obtain ⟨hown, _, _, hpp, hvp⟩ := h6 a' ha2
      refine ⟨hpp, by simp [nattrFact], ?_⟩
      intro s hs
      rcases (by simpa [nattrFact] using hs : s = a'.1 ∨ s ∈ a'.2.2) with h | h
      · exact h ▸ h2 a'.1 hown
      · exact hvp s h
  · obtain ⟨a', ha2, rfl⟩ := List.mem_map.mp hd
    obtain ⟨hown, _, hpp, hvp⟩ := h8 a' ha2
    obtain ⟨_, _, _, hp1, hp2⟩ := h4 a'.1 hown
    refine ⟨hpp, by simp [eattrFact], ?_⟩
    intro s hs
    rcases (by simpa [eattrFact] using hs : s = a'.1.1 ∨ s = a'.1.2 ∨ s ∈ a'.2.2) with h | h | h
    · exact h ▸ hp1
    · exact h ▸ hp2
    · exact hvp s h

/-- Printing plain atoms and re-parsing the lines is the identity. -/
theorem filterMap_parse_print (atoms : List Atom)
    (h : ∀ a ∈ atoms, plainStr a.pred = true ∧ a.args ≠ [] ∧
      ∀ s ∈ a.args, plainStr s = true) :
    (atoms.map printAtom).filterMap parseLine = atoms := by
  induction atoms with
  | nil => rfl
  | cons a t ih =>
    obtain ⟨hp, hargs, hall⟩ := h a (by simp)
    rw [List.map_cons, List.filterMap_cons, parse_print a hp hargs hall,
      ih (fun b hb => h b (List.mem_cons_of_mem _ hb))]

/-- Re-building the serialized form of a well-formed graph recovers every
store exactly, re-creating nodes from node facts, edge facts and attribute
facts (in that order). -/
theorem build_serialize (g : Graph) (P : String) (h : wellFormed P g) :
    ∃ ex2 ex3 : List String,
      (graph_from_lines (asp_from_graph g P) P).nodes =
        (isolatedNodes g ++ ex2) ++ ex3 ∧
      (graph_from_lines (asp_from_graph g P) P).edges = g.edges ∧
      (graph_from_lines (asp_from_graph g P) P).nattrs = g.nattrs ∧
      (graph_from_lines (asp_from_graph g P) P).eattrs = g.eattrs ∧
      (∀ x ∈ ex2, ∃ e ∈ g.edges, x = e.1 ∨ x = e.2) ∧
      (∀ x ∈ ex3, ∃ a ∈ g.nattrs, x = a.1) ∧
      (∀ e ∈ g.edges, e.1 ∈ isolatedNodes g ++ ex2 ∧ e.2 ∈ isolatedNodes g ++ ex2) ∧
      (∀ a ∈ g.nattrs, a.1 ∈ (isolatedNodes g ++ ex2) ++ ex3) := by
  have hplain := serialize_plain g P h
  obtain ⟨⟨h1, h2, h3, h4, h5, h6, h7, h8⟩, hcol, hP⟩ := h
  have hstep : graph_from_lines (asp_from_graph g P) P =
      List.foldl (addAtom P) emptyGraph (serializeAtoms g P) := by
    unfold graph_from_lines asp_from_graph buildGraph
    rw [filterMap_parse_print _ hplain]
  rw [hstep]
  unfold serializeAtoms
  rw [List.foldl_append, List.foldl_append, List.foldl_append]
  set g1 := List.foldl (addAtom P) emptyGraph ((isolatedNodes g).map nodeFact) with hg1
  set g2 := List.foldl (addAtom P) g1 (g.edges.map (edgeFact P)) with hg2
  set g3 := List.foldl (addAtom P) g2 (g.nattrs.map nattrFact) with hg3
  obtain ⟨s1n, s1e, s1a, s1b⟩ :=
    foldl_nodeFacts P (isolatedNodes g) emptyGraph (by simp [emptyGraph]) (h1.filter _)
  rw [← hg1] at s1n s1e s1a s1b
  have s1n' : g1.nodes = isolatedNodes g := by rw [s1n]; rfl
  have s1e' : g1.edges = [] := s1e
  have s1a' : g1.nattrs = [] := s1a
  have s1b' : g1.eattrs = [] := s1b
  obtain ⟨ex2, s2n, s2e, s2a, s2b, hz2, hmem2, _⟩ :=
    foldl_edgeFacts P g.edges g1 (fun e he => (h4 e he).1)
      (by rw [s1e']; simpa using h3)
  rw [← hg2] at s2n s2e s2a s2b
  rw [s1n'] at s2n hmem2
  have s2e' : g2.edges = g.edges := by rw [s2e, s1e']; rfl
  have s2a' : g2.nattrs = [] := by rw [s2a, s1a']
  have s2b' : g2.eattrs = [] := by rw [s2b, s1b']
  obtain ⟨ex3, s3n, s3e, s3a, s3b, hz3, hmem3, _⟩ :=
    foldl_nattrFacts P g.nattrs g2 (by rw [s2a']; simpa using h5)
      (fun a ha => (h6 a ha).2.1) (fun a ha => (h6 a ha).2.2.1)
      (by
        intro a ha b hb
        rw [s2e']
        exact hcol a ha b hb)
  rw [← hg3] at s3n s3e s3a s3b
  rw [s2n] at s3n hmem3
  have s3e' : g3.edges = g.edges := by rw [s3e, s2e']
  have s3a' : g3.nattrs = g.nattrs := by rw [s3a, s2a']; rfl
  have s3b' : g3.eattrs = [] := by rw [s3b, s2b']
  obtain ⟨s4n, s4e, s4a, s4b⟩ :=
    foldl_eattrFacts P g.eattrs g3 (by rw [s3b']; simpa using h7)
      (by
        intro a ha
        rw [s3e']
        exact ⟨(h8 a ha).1, (h4 a.1 (h8 a ha).1).1⟩)
      (fun a ha => (h8 a ha).2.1)
  refine ⟨ex2, ex3, ?_, ?_, ?_, ?_, hz2, hz3, hmem2, hmem3⟩
  · rw [s4n, s3n]
  · rw [s4e, s3e']
  · rw [s4a, s3a']
  · rw [s4b, s3b']
    rfl

/-- Round trip preserves the node set. -/
theorem build_serialize_nodes (g : Graph) (P : String) (h : wellFormed P g) :
    ∀ x, x ∈ (graph_from_lines (asp_from_graph g P) P).nodes ↔ x ∈ g.nodes := by
  obtain ⟨ex2, ex3, hn, _, _, _, hz2, hz3, hmem2, hmem3⟩ := build_serialize g P h
  obtain ⟨⟨h1, h2, h3, h4, h5, h6, h7, h8⟩, hcol, hP⟩ := h
  intro x
  rw [hn]
  constructor
  · intro hx
    rcases List.mem_append.mp hx with hx' | hx'
    · rcases List.mem_append.mp hx' with hx'' | hx''
      · exact List.mem_of_mem_filter hx''
      · obtain ⟨e, he, hor⟩ := hz2 x hx''
        rcases hor with h | h
        · exact h ▸ (h4 e he).2.1
        · exact h ▸ (h4 e he).2.2.1
    · obtain ⟨a, ha, heq⟩ := hz3 x hx'
      exact heq ▸ (h6 a ha).1
  · intro hx
    by_cases hf : isoFree g.edges g.nattrs x = true
    · exact List.mem_append_left _ (List.mem_append_left _ (List.mem_filter.mpr ⟨hx, hf⟩))
    · have hf2 : (g.edges.any (fun e => e.1 = x || e.2 = x)) = true ∨
          (g.nattrs.any (fun a => a.1 = x)) = true := by
        by_contra hcon
        push_neg at hcon
        have ha1 : g.edges.any (fun e => e.1 = x || e.2 = x) = false :=
          Bool.eq_false_iff.mpr hcon.1
        have ha2 : g.nattrs.any (fun a => a.1 = x) = false :=
          Bool.eq_false_iff.mpr hcon.2
        exact hf (by rw [isoFree, ha1, ha2]; rfl)
      rcases hf2 with hany | hany
      · obtain ⟨e, he, hor⟩ := List.any_eq_true.mp hany
        have hhit := hmem2 e he
        rcases (by simpa using hor : e.1 = x ∨ e.2 = x) with h | h
        · exact List.mem_append_left _ (h ▸ hhit.1)
        · exact List.mem_append_left _ (h ▸ hhit.2)
      · obtain ⟨a, ha, heq⟩ := List.any_eq_true.mp hany
        have heq' : a.1 = x := by simpa using heq
        exact heq' ▸ hmem3 a ha

/-- Round trip preserves the list of isolated nodes exactly (in order). -/
theorem build_serialize_isolated (g : Graph) (P : String) (h : wellFormed P g) :
    isolatedNodes (graph_from_lines (asp_from_graph g P) P) = isolatedNodes g := by
  obtain ⟨ex2, ex3, hn, he, ha, hb, hz2, hz3, _, _⟩ := build_serialize g P h
  unfold isolatedNodes
  rw [hn, he, ha, List.filter_append, List.filter_append]
  have hiso : List.filter (isoFree g.edges g.nattrs) (isolatedNodes g) = isolatedNodes g := by
    rw [List.filter_eq_self]
    intro a ha2
    exact (List.mem_filter.mp ha2).2
  have hex2 : List.filter (isoFree g.edges g.nattrs) ex2 = [] := by
    rw [List.filter_eq_nil_iff]
    intro a ha2
    obtain ⟨e, hee, hor⟩ := hz2 a ha2
    have hany : g.edges.any (fun e2 => e2.1 = a || e2.2 = a) = true := by
      rw [List.any_eq_true]
      refine ⟨e, hee, ?_⟩
      rcases hor with h | h <;> simp [h]
    simp [isoFree, hany]
  have hex3 : List.filter (isoFree g.edges g.nattrs) ex3 = [] := by
    rw [List.filter_eq_nil_iff]
    intro a ha2
    obtain ⟨b, hbb, heq⟩ := hz3 a ha2
    have hany : g.nattrs.any (fun a2 => a2.1 = a) = true := by
      rw [List.any_eq_true]
      exact ⟨b, hbb, by simp [heq]⟩
    simp [isoFree, hany]
  rw [hiso, hex2, hex3, List.append_nil, List.append_nil]
  rfl

/-- Serializing the rebuilt graph reproduces the exact same lines. -/
theorem serialize_build_serialize (g : Graph) (P : String) (h : wellFormed P g) :
    asp_from_graph (graph_from_lines (asp_from_graph g P) P) P = asp_from_graph g P := by
  obtain ⟨ex2, ex3, hn, he, ha, hb, _, _, _, _⟩ := build_serialize g P h
  have hiso := build_serialize_isolated g P h
  show (serializeAtoms (graph_from_lines (asp_from_graph g P) P) P).map printAtom =
    (serializeAtoms g P).map printAtom
  unfold serializeAtoms
  rw [hiso, he, ha, hb]

/-! ### Structural equality of graphs -/

/-- Set equality of two lists, as a decidable test. -/
def sameSetB {α : Type} [DecidableEq α] (xs ys : List α) : Bool :=
  xs.all (fun x => decide (x ∈ ys)) && ys.all (fun y => decide (y ∈ xs))

/-- Structural identity of graphs: same node set, same edge set (of
canonical unordered pairs), same attribute mappings. -/
def structEq (g h : Graph) : Bool :=
  sameSetB g.nodes h.nodes && sameSetB g.edges h.edges &&
    sameSetB g.nattrs h.nattrs && sameSetB g.eattrs h.eattrs

theorem sameSetB_of_iff {α : Type} [DecidableEq α] {xs ys : List α}
    (h : ∀ x, x ∈ xs ↔ x ∈ ys) : sameSetB xs ys = true := by
  unfold sameSetB
  rw [Bool.and_eq_true, List.all_eq_true, List.all_eq_true]
  constructor
  · intro x hx
    exact decide_eq_true_eq.mpr ((h x).mp hx)
  · intro y hy
    exact decide_eq_true_eq.mpr ((h y).mpr hy)

theorem sameSetB_self {α : Type} [DecidableEq α] (xs : List α) : sameSetB xs xs = true :=
  sameSetB_of_iff (fun _ => Iff.rfl)

/-! ### Connected components

Modelled from the spec: the connected-components capability (`networkx` is
an external collaborator).  Components are computed by starting from
singleton blocks and merging the two blocks joined by each edge; the result
partitions the nodes into maximal edge-connected groups. -/

/-- Find and remove the block containing `x`, returning it with the rest. -/
def extractBlock : List (List String) → String → Option (List String × List (List String))
  | [], _ => Option.none
  | b :: t, x =>
    if x ∈ b then some (b, t)
    else
      match extractBlock t x with
      | some (bx, t2) => some (bx, b :: t2)
      | Option.none => Option.none

/-- Merge the blocks containing `x` and `y` (no-op when already together). -/
def mergeB (part : List (List String)) (x y : String) : List (List String) :=
  match extractBlock part x with
  | Option.none => part
  | some (bx, rest) =>
    if y ∈ bx then part
    else
      match extractBlock rest y with
      | some (byy, rest2) => (bx ++ byy) :: rest2
      | Option.none => part

/-- Modelled from the spec: connected components of a graph, as node lists. -/
def connectedComponents (g : Graph) : List (List String) :=
  g.edges.foldl (fun part e => mergeB part e.1 e.2) (g.nodes.map (fun n => [n]))

/-- The induced subgraph on a node subset, as taken by the splitter
(`graph.subgraph(cc_nodes)`): nodes, edges and attributes restricted. -/
def inducedSubgraph (g : Graph) (ns : List String) : Graph :=
  { nodes := g.nodes.filter (fun n => decide (n ∈ ns)),
    edges := g.edges.filter (fun e => decide (e.1 ∈ ns) && decide (e.2 ∈ ns)),
    nattrs := g.nattrs.filter (fun a => decide (a.1 ∈ ns)),
    eattrs := g.eattrs.filter (fun a => decide (a.1.1 ∈ ns) && decide (a.1.2 ∈ ns)) }

theorem extractBlock_perm : ∀ (part : List (List String)) (x : String)
    (b : List String) (rest : List (List String)),
    extractBlock part x = some (b, rest) → part.Perm (b :: rest) ∧ x ∈ b
  | [], x, b, rest, h => by simp [extractBlock] at h
  | c :: t, x, b, rest, h => by
    simp only [extractBlock] at h
    split at h
    case isTrue hmem =>
      obtain ⟨hb, hrest⟩ := (Prod.mk.injEq _ _ _ _).mp (Option.some.injEq _ _ |>.mp h)
      subst hb
      subst hrest
      exact ⟨List.Perm.refl _, hmem⟩
    case isFalse hmem =>
      split at h
      case h_1 bx t2 heq =>
        obtain ⟨hb, hrest⟩ := (Prod.mk.injEq _ _ _ _).mp (Option.some.injEq _ _ |>.mp h)
        obtain ⟨hperm, hx⟩ := extractBlock_perm t x bx t2 heq
        subst hb
        subst hrest
        exact ⟨(hperm.cons c).trans (List.Perm.swap _ _ _), hx⟩
      case h_2 => exact absurd h (by simp)

theorem extractBlock_none (part : List (List String)) (x : String)
    (h : extractBlock part x = Option.none) : ∀ b ∈ part, x ∉ b := by
  induction part with
  | nil => simp
  | cons c t ih =>
    simp only [extractBlock] at h
    split at h
    case isTrue hmem => exact absurd h (by simp)
    case isFalse hmem =>
      split at h
      case h_1 => exact absurd h (by simp)
      case h_2 heq =>
        intro b hb
        rcases List.mem_cons.mp hb with h1 | h1
        · exact h1 ▸ hmem
        · exact ih heq b h1

/-- Merging permutes the flattened node multiset (nothing lost or added). -/
theorem mergeB_flatten_perm (part : List (List String)) (x y : String) :
    (mergeB part x y).flatten.Perm part.flatten := by
  unfold mergeB
  split
  case h_1 => exact List.Perm.refl _
  case h_2 bx rest hx =>
    obtain ⟨hperm1, _⟩ := extractBlock_perm part x bx rest hx
    split
    case isTrue => exact List.Perm.refl _
    case isFalse hy =>
      split
      case h_1 byy rest2 hy2 =>
        obtain ⟨hperm2, _⟩ := extractBlock_perm rest y byy rest2 hy2
        have h1 : part.flatten.Perm (bx ++ rest.flatten) := by
          have := hperm1.flatten
          simpa using this
        have h2 : rest.flatten.Perm (byy ++ rest2.flatten) := by
          have := hperm2.flatten
          simpa using this
        have h3 : ((bx ++ byy) :: rest2).flatten = bx ++ (byy ++ rest2.flatten) := by
          simp [List.append_assoc]
        rw [h3]
        exact (h1.trans (h2.append_left bx)).symm
      case h_2 => exact List.Perm.refl _

/-- Every block of the input is contained in some block of the merge. -/
theorem mergeB_mono (part : List (List String)) (x y : String) :
    ∀ b ∈ part, ∃ c ∈ mergeB part x y, ∀ z ∈ b, z ∈ c := by
  intro b hb
  unfold mergeB
  split
  case h_1 => exact ⟨b, hb, fun z hz => hz⟩
  case h_2 bx rest hx =>
    obtain ⟨hperm1, _⟩ := extractBlock_perm part x bx rest hx
    split
    case isTrue => exact ⟨b, hb, fun z hz => hz⟩
    case isFalse hy =>
      split
      case h_1 byy rest2 hy2 =>
        obtain ⟨hperm2, _⟩ := extractBlock_perm rest y byy rest2 hy2
        have hb1 : b = bx ∨ b ∈ rest := by
          rcases List.mem_cons.mp (hperm1.mem_iff.mp hb) with h | h
          · exact Or.inl h
          · exact Or.inr h
        rcases hb1 with h | h
        · exact ⟨bx ++ byy, by simp, fun z hz => List.mem_append_left _ (h ▸ hz)⟩
        · rcases List.mem_cons.mp (hperm2.mem_iff.mp h) with h2 | h2
          · exact ⟨bx ++ byy, by simp, fun z hz => List.mem_append_right _ (h2 ▸ hz)⟩
          · exact ⟨b, List.mem_cons_of_mem _ h2, fun z hz => hz⟩
      case h_2 => exact ⟨b, hb, fun z hz => hz⟩

/-- After merging the blocks of an edge, its ends are together in a block. -/
theorem mergeB_joins (part : List (List String)) (x y : String)
    (hx : x ∈ part.flatten) (hy : y ∈ part.flatten) :
    ∃ b ∈ mergeB part x y, x ∈ b ∧ y ∈ b := by
  obtain ⟨bx0, hbx0, hxin0⟩ := List.mem_flatten.mp hx
  cases heq : extractBlock part x with
  | none => exact absurd hxin0 (extractBlock_none part x heq bx0 hbx0)
  | some pr =>
    obtain ⟨bx, rest⟩ := pr
    obtain ⟨hperm1, hxin⟩ := extractBlock_perm part x bx rest heq
    have hm0 : mergeB part x y =
        (if y ∈ bx then part
         else match extractBlock rest y with
           | some (byy, rest2) => (bx ++ byy) :: rest2
           | Option.none => part) := by
      unfold mergeB
      rw [heq]
    by_cases hymem : y ∈ bx
    · rw [hm0, if_pos hymem]
      exact ⟨bx, hperm1.mem_iff.mpr (by simp), hxin, hymem⟩
    · have hyrest : y ∈ rest.flatten := by
        have hy2 : y ∈ (bx :: rest).flatten := (hperm1.flatten.mem_iff).mp hy
        rcases List.mem_flatten.mp hy2 with ⟨c, hc, hyc⟩
        rcases List.mem_cons.mp hc with h | h
        · exact absurd (h ▸ hyc) hymem
        · exact List.mem_flatten.mpr ⟨c, h, hyc⟩
      obtain ⟨by0, hby0, hyin0⟩ := List.mem_flatten.mp hyrest
      cases heq2 : extractBlock rest y with
      | none => exact absurd hyin0 (extractBlock_none rest y heq2 by0 hby0)
      | some pr2 =>
        obtain ⟨byy, rest2⟩ := pr2
        obtain ⟨hperm2, hyin⟩ := extractBlock_perm rest y byy rest2 heq2
        rw [hm0, if_neg hymem, heq2]
        exact ⟨bx ++ byy, List.mem_cons_self _ _,
          List.mem_append_left _ hxin, List.mem_append_right _ hyin⟩

/-- Folding the merges over a list of edges: the flattened partition keeps
the same nodes, every processed edge ends co-blocked, and blocks only grow. -/
theorem foldl_merge_inv (es : List (String × String)) (part0 : List (List String)) :
    (es.foldl (fun part e => mergeB part e.1 e.2) part0).flatten.Perm part0.flatten ∧
    (∀ e ∈ es, e.1 ∈ part0.flatten → e.2 ∈ part0.flatten →
      ∃ b ∈ es.foldl (fun part e => mergeB part e.1 e.2) part0, e.1 ∈ b ∧ e.2 ∈ b) ∧
    (∀ b ∈ part0, ∃ c ∈ es.foldl (fun part e => mergeB part e.1 e.2) part0,
      ∀ z ∈ b, z ∈ c) := by
  induction es generalizing part0 with
  | nil =>
    exact ⟨List.Perm.refl _, by simp, fun b hb => ⟨b, hb, fun z hz => hz⟩⟩
  | cons e t ih =>
    obtain ⟨ihp, ihjoin, ihmono⟩ := ih (mergeB part0 e.1 e.2)
    have hflat := mergeB_flatten_perm part0 e.1 e.2
    refine ⟨?_, ?_, ?_⟩
    · rw [List.foldl_cons]
      exact ihp.trans hflat
    · intro f hf hf1 hf2
      rcases List.mem_cons.mp hf with h | h
      · subst h
        obtain ⟨b, hb, hxin, hyin⟩ := mergeB_joins part0 f.1 f.2 hf1 hf2
        obtain ⟨c, hc, hsub⟩ := ihmono b hb
        exact ⟨c, hc, hsub _ hxin, hsub _ hyin⟩
      · exact ihjoin f h (hflat.mem_iff.mpr hf1) (hflat.mem_iff.mpr hf2)
    · intro b hb
      obtain ⟨c1, hc1, hsub1⟩ := mergeB_mono part0 e.1 e.2 b hb
      obtain ⟨c2, hc2, hsub2⟩ := ihmono c1 hc1
      exact ⟨c2, hc2, fun z hz => hsub2 z (hsub1 z hz)⟩

theorem flatten_map_singleton (ns : List String) :
    (ns.map (fun n => [n])).flatten = ns := by
  induction ns with
  | nil => rfl
  | cons n t ih => simp [ih]

/-- A duplicate-free flattening forces pairwise disjoint blocks. -/
theorem nodup_flatten_pairwise (part : List (List String))
    (h : part.flatten.Nodup) :
    List.Pairwise (fun b c => ∀ z ∈ b, z ∉ c) part := by
  induction part with
  | nil => exact List.Pairwise.nil
  | cons b t ih =>
    rw [List.flatten_cons] at h
    obtain ⟨hb, ht, hdisj⟩ := List.nodup_append.mp h
    refine List.Pairwise.cons ?_ (ih ht)
    intro c hc z hz hzc
    exact hdisj hz (List.mem_flatten.mpr ⟨c, hc, hzc⟩)

/-! ### The high-level routines of `src/grasp/routines.py`

`split_by_cc` and `clean` are embedded from the source.  File resources are
their lists of lines; writing is recorded explicitly, and a write oracle
`wok` says which targets are writable (an unwritable target raises an
I/O error, as `open(target, 'w')` would). -/

/-- Modelled from the spec: `grasp.commons.edge_predicate`, the single
shared default edge-predicate value used by every routine (the examples of
the spec recognize the relation name `edge`). -/
def edge_predicate : String := "edge"

/-- Modelled from the spec: `grasp.commons.normalize_filename`; filename
normalization is out of scope and treated as simple resource naming, so the
model takes it as the identity on resource names. -/
def normalize_filename (s : String) : String := s

/-- A Python argument value for the `targets` parameter: `None`, a string,
or a value of another type (with its truthiness). -/
inductive PyTarget where
  | null : PyTarget
  | str : String → PyTarget
  | other : Bool → PyTarget
deriving DecidableEq

/-- Python truthiness of the `targets` argument (`if not targets:`). -/
def isTruthy : PyTarget → Bool
  | PyTarget.null => false
  | PyTarget.str s => !s.data.isEmpty
  | PyTarget.other b => b

/-- The exceptions `split_by_cc` can raise. -/
inductive PyErr where
  | valueError : String → PyErr
  | indexError : PyErr
  | ioError : String → PyErr
deriving DecidableEq

/-- Substring test for the slot, as Python's `'{}' in targets`. -/
def hasSlotSub : List Char → Bool
  | [] => false
  | [_] => false
  | a :: b :: t => if a = '\x7b' ∧ b = '\x7d' then true else hasSlotSub (b :: t)

/-- Number of substitution slots in a template. -/
def countSlots : List Char → Nat
  | [] => 0
  | [_] => 0
  | a :: b :: t => if a = '\x7b' ∧ b = '\x7d' then countSlots t + 1 else countSlots (b :: t)

/-- Python's `template.format(arg)` with one positional argument: every slot
is substituted, but a second slot raises `IndexError` (modelled as `none`). -/
def pyFormatChars (arg : List Char) : List Char → Option (List Char)
  | [] => some []
  | [c] => some [c]
  | a :: b :: t =>
    if a = '\x7b' ∧ b = '\x7d' then
      if hasSlotSub t then Option.none else some (arg ++ t)
    else (pyFormatChars arg (b :: t)).map (fun r => a :: r)

/-- Total substitution of the first slot (the value of `format` when the
template has exactly one slot). -/
def substOnce (arg : List Char) : List Char → List Char
  | [] => []
  | [c] => [c]
  | a :: b :: t =>
    if a = '\x7b' ∧ b = '\x7d' then arg ++ t else a :: substOnce arg (b :: t)

/-- `targets.format(idx)` on strings. -/
def pyFormat (tmpl : String) (n : Nat) : Option String :=
  (pyFormatChars (toString n).data tmpl.data).map (fun cs => (⟨cs⟩ : String))

/-- The target name of component `i` for a single-slot template. -/
def fmtTarget (tmpl : String) (i : Nat) : String := ⟨substOnce (toString i).data tmpl.data⟩

/-- `os.path.splitext`: last index of a character. -/
def lastIdx (c : Char) : List Char → Option Nat
  | [] => Option.none
  | a :: t =>
    match lastIdx c t with
    | some i => some (i + 1)
    | Option.none => if a = c then some 0 else Option.none

/-- `os.path.splitext` over the characters of a path: split at the last dot
of the basename unless the part before it is all dots. -/
def splitextChars (cs : List Char) : List Char × List Char :=
  match lastIdx '.' cs with
  | Option.none => (cs, [])
  | some d =>
    let base : Nat :=
      match lastIdx '/' cs with
      | Option.none => 0
      | some s => s + 1
    if base ≤ d ∧ ((cs.drop base).take (d - base)).any (fun c => c ≠ '.') then
      (cs.take d, cs.drop d)
    else (cs, [])

/-- The template `split_by_cc` derives from the source name when `targets`
is falsy: `name + '_{}' + ext`. -/
def derivedTemplate (fname : String) : String :=
  (⟨(splitextChars fname.data).1⟩ : String) ++ "_\x7b\x7d" ++
    (⟨(splitextChars fname.data).2⟩ : String)

/-- The validation prologue of `split_by_cc` (`routines.py`, lines 18-24):
falsy targets derive a template from the source name; a truthy non-string
raises `ValueError`; a truthy string must contain the slot substring. -/
def resolveTargets (fname : String) (targets : PyTarget) : Except PyErr String :=
  if isTruthy targets = false then Except.ok (derivedTemplate fname)
  else
    match targets with
    | PyTarget.str s =>
      if hasSlotSub s.data then Except.ok s
      else Except.error (PyErr.valueError ("Target should be a filename to write containing a slot"))
    | _ => Except.error (PyErr.valueError ("Target should be a filename to write"))

/-- Outcome of a `split_by_cc` call: the exception (if any), the resources
written with their contents (in writing order), and the returned names. -/
structure SplitRun where
  error : Option PyErr
  writes : List (String × List String)
  writtens : List String
deriving DecidableEq

/-- One iteration of the component loop: format the target name, then (if
the target is writable) write the serialized induced subgraph and keep the
outcome of the remaining iterations. -/
def splitLoopStep (tmpl P : String) (wok : String → Bool) (g : Graph) (idx : Nat)
    (c : List String) (rest : SplitRun) : SplitRun :=
  match pyFormat tmpl idx with
  | Option.none => SplitRun.mk (some PyErr.indexError) [] []
  | some target =>
    if wok target then
      SplitRun.mk rest.error
        ((target, asp_from_graph (inducedSubgraph g c) P) :: rest.writes)
        (target :: rest.writtens)
    else SplitRun.mk (some (PyErr.ioError target)) [] []

/-- The component loop of `split_by_cc` (`routines.py`, lines 27-33). -/
def splitLoop (tmpl P : String) (wok : String → Bool) (g : Graph) :
    Nat → List (List String) → SplitRun
  | _, [] => SplitRun.mk Option.none [] []
  | idx, c :: cs =>
    splitLoopStep tmpl P wok g idx c (splitLoop tmpl P wok g (idx + 1) cs)

/-- `split_by_cc` from `src/grasp/routines.py`: validate the target
template, parse the source, then write one resource per connected
component, returning the names written. -/
def split_by_cc (fname : String) (targets : PyTarget) (P : String)
    (src : List String) (wok : String → Bool) : SplitRun :=
  match resolveTargets fname targets with
  | Except.error e => SplitRun.mk (some e) [] []
  | Except.ok tmpl =>
    splitLoop tmpl P wok (graph_from_lines src P) 0
      (connectedComponents (graph_from_lines src P))

/-- Outcome of a `clean` call: the resource written, the edge predicate
used on output, and the written lines. -/
structure CleanRun where
  target : String
  outPred : String
  content : List String
deriving DecidableEq

/-- `clean` from `src/grasp/routines.py`: normalize the file names, default
the target to the (normalized) source, parse with the input edge predicate
and serialize with the output edge predicate.  Omitted optional arguments
are `none`; both edge predicates default to the module-level
`edge_predicate` value. -/
def clean (fname : String) (target : Option String) (ep tep : Option String)
    (src : List String) : CleanRun :=
  let epv := ep.getD edge_predicate
  let tepv := tep.getD edge_predicate
  let fname1 := normalize_filename fname
  let target1 : Option String :=
    match target with
    | some t => if t.data.isEmpty then some t else some (normalize_filename t)
    | Option.none => Option.none
  let target2 : String :=
    match target1 with
    | some t => if t.data.isEmpty then fname1 else t
    | Option.none => fname1
  CleanRun.mk target2 tepv (asp_from_graph (graph_from_lines src epv) tepv)

/-! ### Behavior of the splitter loop -/

/-- The resources a fully successful loop writes: the `i`-th component goes
to the name obtained by substituting `i` into the template. -/
def splitWrites (tmpl P : String) (g : Graph) (idx : Nat)
    (cs : List (List String)) : List (String × List String) :=
  (List.zip (List.range' idx cs.length) cs).map
    (fun p => (fmtTarget tmpl p.1, asp_from_graph (inducedSubgraph g p.2) P))

theorem splitWrites_nil (tmpl P : String) (g : Graph) (idx : Nat) :
    splitWrites tmpl P g idx [] = [] := rfl

theorem splitWrites_cons (tmpl P : String) (g : Graph) (idx : Nat)
    (c : List String) (cs : List (List String)) :
    splitWrites tmpl P g idx (c :: cs) =
      (fmtTarget tmpl idx, asp_from_graph (inducedSubgraph g c) P) ::
        splitWrites tmpl P g (idx + 1) cs := by
  unfold splitWrites
  rw [List.length_cons, List.range'_succ]
  rfl

theorem countSlots_zero : ∀ cs : List Char, countSlots cs = 0 ↔ hasSlotSub cs = false
  | [] => by simp [countSlots, hasSlotSub]
  | [c] => by simp [countSlots, hasSlotSub]
  | a :: b :: t => by
    by_cases h : a = '\x7b' ∧ b = '\x7d'
    · simp [countSlots, hasSlotSub, h]
    · have := countSlots_zero (b :: t)
      simp [countSlots, hasSlotSub, h, this]

theorem pyFormatChars_one (arg : List Char) :
    ∀ cs : List Char, countSlots cs = 1 → pyFormatChars arg cs = some (substOnce arg cs)
  | [] => by simp [countSlots]
  | [c] => by simp [countSlots]
  | a :: b :: t => by
    by_cases h : a = '\x7b' ∧ b = '\x7d'
    · intro h1
      have ht : countSlots t = 0 := by
        have h2 : countSlots t + 1 = 1 := by simpa [countSlots, h] using h1
        omega
      have hslot : hasSlotSub t = false := (countSlots_zero t).mp ht
      simp [pyFormatChars, substOnce, h, hslot]
    · intro h1
      have h2 : countSlots (b :: t) = 1 := by simpa [countSlots, h] using h1
      have h3 := pyFormatChars_one arg (b :: t) h2
      simp [pyFormatChars, substOnce, h, h3]

/-- With exactly one slot, `format` always succeeds with the substitution. -/
theorem pyFormat_one (tmpl : String) (n : Nat) (h : countSlots tmpl.data = 1) :
    pyFormat tmpl n = some (fmtTarget tmpl n) := by
  unfold pyFormat fmtTarget
  rw [pyFormatChars_one _ _ h]
  rfl

theorem splitLoopStep_fmt_none (tmpl P : String) (wok : String → Bool) (g : Graph)
    (idx : Nat) (c : List String) (rest : SplitRun)
    (hfmt : pyFormat tmpl idx = Option.none) :
    splitLoopStep tmpl P wok g idx c rest = SplitRun.mk (some PyErr.indexError) [] [] := by
  unfold splitLoopStep
  rw [hfmt]

theorem splitLoopStep_fmt (tmpl P : String) (wok : String → Bool) (g : Graph)
    (idx : Nat) (c : List String) (rest : SplitRun) (t : String)
    (hfmt : pyFormat tmpl idx = some t) :
    splitLoopStep tmpl P wok g idx c rest =
      if wok t then
        SplitRun.mk rest.error
          ((t, asp_from_graph (inducedSubgraph g c) P) :: rest.writes)
          (t :: rest.writtens)
      else SplitRun.mk (some (PyErr.ioError t)) [] [] := by
  unfold splitLoopStep
  rw [hfmt]

/-- With a single-slot template and all targets writable, the loop succeeds
and writes the `i`-th component to the `i`-th substituted name, returning
exactly those names in order. -/
theorem splitLoop_all_ok (tmpl P : String) (wok : String → Bool) (g : Graph)
    (hslots : countSlots tmpl.data = 1) (hok : ∀ t, wok t = true) :
    ∀ (cs : List (List String)) (idx : Nat),
      splitLoop tmpl P wok g idx cs =
        SplitRun.mk Option.none (splitWrites tmpl P g idx cs)
          ((List.range' idx cs.length).map (fmtTarget tmpl))
  | [], idx => by simp [splitLoop, splitWrites_nil]
  | c :: cs, idx => by
    have hred : splitLoop tmpl P wok g idx (c :: cs) =
        splitLoopStep tmpl P wok g idx c (splitLoop tmpl P wok g (idx + 1) cs) := rfl
    have ih := splitLoop_all_ok tmpl P wok g hslots hok cs (idx + 1)
    rw [hred, splitLoopStep_fmt tmpl P wok g idx c _ _ (pyFormat_one tmpl idx hslots),
      if_pos (hok (fmtTarget tmpl idx)), ih, splitWrites_cons,
      List.length_cons, List.range'_succ, List.map_cons]

/-- If the first `j` targets are writable and the `j`-th is not, the loop
stops with an I/O error on the `j`-th name and the writes are exactly the
first `j` components (no rollback). -/
theorem splitLoop_fail_at (tmpl P : String) (wok : String → Bool) (g : Graph)
    (hslots : countSlots tmpl.data = 1) :
    ∀ (cs : List (List String)) (idx j : Nat), j < cs.length →
      (∀ i, i < j → wok (fmtTarget tmpl (idx + i)) = true) →
      wok (fmtTarget tmpl (idx + j)) = false →
      splitLoop tmpl P wok g idx cs =
        SplitRun.mk (some (PyErr.ioError (fmtTarget tmpl (idx + j))))
          (splitWrites tmpl P g idx (cs.take j))
          ((List.range' idx j).map (fmtTarget tmpl))
  | [], idx, j, hj, _, _ => by simp at hj
  | c :: cs, idx, j, hj, hok, hfail => by
    have hred : splitLoop tmpl P wok g idx (c :: cs) =
        splitLoopStep tmpl P wok g idx c (splitLoop tmpl P wok g (idx + 1) cs) := rfl
    cases j with
    | zero =>
      have hfail' : wok (fmtTarget tmpl idx) = false := by simpa using hfail
      rw [hred, splitLoopStep_fmt tmpl P wok g idx c _ _ (pyFormat_one tmpl idx hslots),
        if_neg (by rw [hfail']; simp)]
      simp [splitWrites_nil]
    | succ j =>
      have hok0 : wok (fmtTarget tmpl idx) = true := by
        have := hok 0 (Nat.succ_pos j)
        simpa using this
      have hok' : ∀ i, i < j → wok (fmtTarget tmpl (idx + 1 + i)) = true := by
        intro i hi
        have := hok (i + 1) (by omega)
        have harith : idx + (i + 1) = idx + 1 + i := by omega
        rwa [harith] at this
      have hfail' : wok (fmtTarget tmpl (idx + 1 + j)) = false := by
        have harith : idx + (j + 1) = idx + 1 + j := by omega
        rwa [harith] at hfail
      have ih := splitLoop_fail_at tmpl P wok g hslots cs (idx + 1) j
        (by simpa using Nat.lt_of_succ_lt_succ hj) hok' hfail'
      rw [hred, splitLoopStep_fmt tmpl P wok g idx c _ _ (pyFormat_one tmpl idx hslots),
        if_pos hok0, ih]
      have harith : idx + 1 + j = idx + (j + 1) := by omega
      rw [List.take_succ_cons, splitWrites_cons, List.range'_succ, List.map_cons, harith]

/-- The loop never raises `ValueError` (validation happens before it). -/
theorem splitLoop_no_valueError (tmpl P : String) (wok : String → Bool) (g : Graph) :
    ∀ (cs : List (List String)) (idx : Nat) (m : String),
      (splitLoop tmpl P wok g idx cs).error ≠ some (PyErr.valueError m)
  | [], idx, m => by simp [splitLoop]
  | c :: cs, idx, m => by
    have hred : splitLoop tmpl P wok g idx (c :: cs) =
        splitLoopStep tmpl P wok g idx c (splitLoop tmpl P wok g (idx + 1) cs) := rfl
    rw [hred]
    unfold splitLoopStep
    cases hfmt : pyFormat tmpl idx with
    | none => simp
    | some t =>
      by_cases hw : wok t
      · simpa [hw] using splitLoop_no_valueError tmpl P wok g cs (idx + 1) m
      · simp [hw]

/-- Every content the loop writes is the serialization, with the loop's own
edge predicate, of the induced subgraph of one of the given components. -/
theorem splitLoop_writes_component (tmpl P : String) (wok : String → Bool) (g : Graph) :
    ∀ (cs : List (List String)) (idx : Nat),
      ∀ w ∈ (splitLoop tmpl P wok g idx cs).writes,
        ∃ c ∈ cs, w.2 = asp_from_graph (inducedSubgraph g c) P
  | [], idx => by simp [splitLoop]
  | c :: cs, idx => by
    have hred : splitLoop tmpl P wok g idx (c :: cs) =
        splitLoopStep tmpl P wok g idx c (splitLoop tmpl P wok g (idx + 1) cs) := rfl
    rw [hred]
    cases hfmt : pyFormat tmpl idx with
    | none =>
      rw [splitLoopStep_fmt_none tmpl P wok g idx c _ hfmt]
      simp
    | some t =>
      rw [splitLoopStep_fmt tmpl P wok g idx c _ t hfmt]
      by_cases hw : wok t
      · rw [if_pos hw]
        intro w hw2
        rcases List.mem_cons.mp hw2 with h | h
        · exact ⟨c, by simp, by rw [h]⟩
        · obtain ⟨c2, hc2, heq⟩ :=
            splitLoop_writes_component tmpl P wok g cs (idx + 1) w h
          exact ⟨c2, List.mem_cons_of_mem _ hc2, heq⟩
      · rw [if_neg hw]
        simp

/-! ### Behavior of the target-template validation -/

theorem hasSlot_append (r : List Char) : ∀ l : List Char,
    hasSlotSub (l ++ '\x7b' :: '\x7d' :: r) = true
  | [] => by simp [hasSlotSub]
  | [c] => by
    show hasSlotSub (c :: '\x7b' :: '\x7d' :: r) = true
    by_cases h : c = '\x7b' ∧ '\x7b' = '\x7d'
    · exact absurd h.2 (by decide)
    · simp [hasSlotSub, h]
  | a :: b :: t => by
    by_cases h : a = '\x7b' ∧ b = '\x7d'
    · simp [hasSlotSub, h]
    · have hrec := hasSlot_append r (b :: t)
      show hasSlotSub (a :: b :: (t ++ '\x7b' :: '\x7d' :: r)) = true
      rw [show hasSlotSub (a :: b :: (t ++ '\x7b' :: '\x7d' :: r)) =
        hasSlotSub (b :: (t ++ '\x7b' :: '\x7d' :: r)) from by simp [hasSlotSub, h]]
      exact hrec

theorem derivedTemplate_data (fname : String) : (derivedTemplate fname).data =
    (splitextChars fname.data).1 ++ '_' :: '\x7b' :: '\x7d' :: (splitextChars fname.data).2 := by
  unfold derivedTemplate
  rw [String.data_append, String.data_append]
  have hmid : ("_\x7b\x7d" : String).data = ['_', '\x7b', '\x7d'] := rfl
  show ((⟨(splitextChars fname.data).1⟩ : String).data ++ ("_\x7b\x7d" : String).data) ++
      (⟨(splitextChars fname.data).2⟩ : String).data = _
  rw [hmid, List.append_assoc]
  rfl

theorem derivedTemplate_hasSlot (fname : String) :
    hasSlotSub (derivedTemplate fname).data = true := by
  rw [derivedTemplate_data]
  have h := hasSlot_append (splitextChars fname.data).2 ((splitextChars fname.data).1 ++ ['_'])
  rwa [List.append_assoc, List.singleton_append] at h

theorem derivedTemplate_truthy (fname : String) :
    isTruthy (PyTarget.str (derivedTemplate fname)) = true := by
  show (!(derivedTemplate fname).data.isEmpty) = true
  rw [derivedTemplate_data]
  cases hsp : (splitextChars fname.data).1 <;> simp

theorem resolveTargets_falsy (fname : String) (targets : PyTarget)
    (h : isTruthy targets = false) :
    resolveTargets fname targets = Except.ok (derivedTemplate fname) := by
  unfold resolveTargets
  rw [if_pos h]

theorem resolveTargets_derived_str (fname : String) :
    resolveTargets fname (PyTarget.str (derivedTemplate fname)) =
      Except.ok (derivedTemplate fname) := by
  unfold resolveTargets
  rw [if_neg (by simp [derivedTemplate_truthy fname])]
  show (if hasSlotSub (derivedTemplate fname).data then Except.ok (derivedTemplate fname)
    else Except.error (PyErr.valueError ("Target should be a filename to write containing a slot"))) =
    Except.ok (derivedTemplate fname)
  rw [if_pos (derivedTemplate_hasSlot fname)]

theorem resolveTargets_str_noslot (fname s : String) (hts : s.data.isEmpty = false)
    (hs : hasSlotSub s.data = false) :
    resolveTargets fname (PyTarget.str s) =
      Except.error (PyErr.valueError ("Target should be a filename to write containing a slot")) := by
  unfold resolveTargets
  rw [if_neg (by simp [isTruthy, hts])]
  show (if hasSlotSub s.data then Except.ok s
    else Except.error (PyErr.valueError ("Target should be a filename to write containing a slot"))) =
    Except.error (PyErr.valueError ("Target should be a filename to write containing a slot"))
  rw [if_neg (by simp [hs])]

theorem resolveTargets_other (fname : String) (h : isTruthy (PyTarget.other true) = true) :
    resolveTargets fname (PyTarget.other true) =
      Except.error (PyErr.valueError ("Target should be a filename to write")) := by
  unfold resolveTargets
  rw [if_neg (by simp [h])]

theorem split_by_cc_error (fname : String) (targets : PyTarget) (P : String)
    (src : List String) (wok : String → Bool) (e : PyErr)
    (h : resolveTargets fname targets = Except.error e) :
    split_by_cc fname targets P src wok = SplitRun.mk (some e) [] [] := by
  unfold split_by_cc
  rw [h]

theorem split_by_cc_ok (fname : String) (targets : PyTarget) (P : String)
    (src : List String) (wok : String → Bool) (tmpl : String)
    (h : resolveTargets fname targets = Except.ok tmpl) :
    split_by_cc fname targets P src wok =
      splitLoop tmpl P wok (graph_from_lines src P) 0
        (connectedComponents (graph_from_lines src P)) := by
  unfold split_by_cc
  rw [h]

/-! ### The claims -/

/-- Attribute stores with duplicate-free keys ("no duplicate-argument
attributes" of the round-trip claim). -/
def noDupAttrKeys (g : Graph) : Bool :=
  decide ((g.nattrs.map (fun a => (a.1, a.2.1))).Nodup) &&
    decide ((g.eattrs.map (fun a => (a.1, a.2.1))).Nodup)

/-- C1: the round-trip claim as stated is false.  The graph with single
node `a` carrying the attribute `e ↦ [b]` has no duplicate-argument
attributes (and satisfies the data-model invariants), yet serializing it
with edge predicate `e` emits the line `e(a,b).`, which re-parses as an
edge: the rebuilt graph has node set `{a, b}` and an edge, so it is not
structurally identical to the original. -/
theorem c1_counterexample :
    noDupAttrKeys (Graph.mk ["a"] [] [("a", "e", ["b"])] []) = true ∧
    asp_from_graph (Graph.mk ["a"] [] [("a", "e", ["b"])] []) "e" = [("e(a,b).")] ∧
    structEq
      (graph_from_lines (asp_from_graph (Graph.mk ["a"] [] [("a", "e", ["b"])] []) "e") "e")
      (Graph.mk ["a"] [] [("a", "e", ["b"])] []) = false := by
  refine ⟨by decide, by decide, by decide⟩

/-- C1 (amended): for any well-formed graph — duplicate-free stores of bare
tokens, canonical edges with existing ends, attribute owners existing,
every node attribute carrying at least one value, and no attribute whose
fact line would parse as an edge fact under `P` — re-parsing the
serializer's output with the same edge-predicate name `P` rebuilds a graph
structurally identical to the original: same node set, same edge set of
unordered pairs, same attribute mappings. -/
theorem c1_roundtrip_wellformed (g : Graph) (P : String) (h : wellFormed P g) :
    structEq (graph_from_lines (asp_from_graph g P) P) g = true := by
  obtain ⟨ex2, ex3, hn, he, ha, hb, _, _, _, _⟩ := build_serialize g P h
  have hnodes := build_serialize_nodes g P h
  unfold structEq
  rw [he, ha, hb, sameSetB_of_iff hnodes, sameSetB_self, sameSetB_self, sameSetB_self]
  rfl

/-- C1 witness: a concrete well-formed graph with an isolated node, an
edge, a node attribute and an edge attribute round-trips. -/
theorem c1_roundtrip_wellformed_witness :
    wellFormed "edge" (Graph.mk ["a", "b", "c"] [("a", "b")]
      [("a", "col", ["red"])] [(("a", "b"), "w", ["x5"])]) ∧
    structEq
      (graph_from_lines (asp_from_graph (Graph.mk ["a", "b", "c"] [("a", "b")]
        [("a", "col", ["red"])] [(("a", "b"), "w", ["x5"])]) "edge") "edge")
      (Graph.mk ["a", "b", "c"] [("a", "b")]
        [("a", "col", ["red"])] [(("a", "b"), "w", ["x5"])]) = true :=
  ⟨by decide, c1_roundtrip_wellformed (Graph.mk ["a", "b", "c"] [("a", "b")]
    [("a", "col", ["red"])] [(("a", "b"), "w", ["x5"])]) "edge" (by decide)⟩

/-- C2: for every graph (duplicate-free nodes, edge ends in the node set),
the components produced by the splitter are pairwise node-disjoint, their
union is exactly the node set, and the edges of the induced subgraphs over
all components are exactly the graph's edge set. -/
theorem c2_component_partition (g : Graph) (h1 : g.nodes.Nodup)
    (h2 : ∀ e ∈ g.edges, e.1 ∈ g.nodes ∧ e.2 ∈ g.nodes) :
    List.Pairwise (fun b c => ∀ z ∈ b, z ∉ c) (connectedComponents g) ∧
    (∀ x, x ∈ (connectedComponents g).flatten ↔ x ∈ g.nodes) ∧
    (∀ e, e ∈ g.edges ↔ ∃ b ∈ connectedComponents g,
      e ∈ (inducedSubgraph g b).edges) := by
  have hflat0 : (g.nodes.map (fun n => [n])).flatten = g.nodes :=
    flatten_map_singleton g.nodes
  obtain ⟨hperm, hjoin, _⟩ := foldl_merge_inv g.edges (g.nodes.map (fun n => [n]))
  rw [hflat0] at hperm hjoin
  have hccperm : (connectedComponents g).flatten.Perm g.nodes := hperm
  refine ⟨?_, ?_, ?_⟩
  · exact nodup_flatten_pairwise _ (hccperm.nodup_iff.mpr h1)
  · intro x
    exact hccperm.mem_iff
  · intro e
    constructor
    · intro he
      obtain ⟨b, hb, h1e, h2e⟩ := hjoin e he (h2 e he).1 (h2 e he).2
      refine ⟨b, hb, List.mem_filter.mpr ⟨he, ?_⟩⟩
      simp [h1e, h2e]
    · rintro ⟨b, hb, hmem⟩
      exact (List.mem_filter.mp hmem).1

/-- C2 witness: a two-component graph; node `a` lies in the union of the
components exactly because it is a node. -/
theorem c2_component_partition_witness :
    (Graph.mk ["a", "b", "c"] [("a", "b")] [] []).nodes.Nodup ∧
    (("a" ∈ (connectedComponents (Graph.mk ["a", "b", "c"] [("a", "b")] [] [])).flatten) ↔
      "a" ∈ (Graph.mk ["a", "b", "c"] [("a", "b")] [] []).nodes) :=
  ⟨by decide, (c2_component_partition (Graph.mk ["a", "b", "c"] [("a", "b")] [] [])
    (by decide) (by decide)).2.1 "a"⟩

/-- C3: the claim as stated is false.  The template `out_{}_{}.lp` does not
contain the substitution slot exactly once (it contains it twice), yet the
call does not fail with a configuration error before processing: on an
empty source it runs to completion with no error at all. -/
theorem c3_counterexample :
    countSlots (String.data ("out_\x7b\x7d_\x7b\x7d.lp")) = 2 ∧
    split_by_cc ("g.lp") (PyTarget.str ("out_\x7b\x7d_\x7b\x7d.lp"))
      edge_predicate [] (fun _ => true) = SplitRun.mk Option.none [] [] := by
  refine ⟨by decide, by decide⟩

/-- C3 (amended): the validation only checks that a truthy target is a
string containing the slot substring at least once.  For every call whose
target is truthy and either not a string, or a string not containing the
slot at all, the call fails with `ValueError` before any component is
processed and writes no files. -/
theorem c3_invalid_target_validation (fname P : String) (src : List String)
    (wok : String → Bool) (targets : PyTarget)
    (ht : isTruthy targets = true)
    (hs : ∀ s, targets = PyTarget.str s → hasSlotSub s.data = false) :
    ∃ msg, split_by_cc fname targets P src wok =
      SplitRun.mk (some (PyErr.valueError msg)) [] [] := by
  cases targets with
  | null => exact absurd ht (by simp [isTruthy])
  | str s =>
    have hts : s.data.isEmpty = false := by
      have h2 : (!s.data.isEmpty) = true := ht
      simpa using h2
    exact ⟨"Target should be a filename to write containing a slot",
      split_by_cc_error fname _ P src wok _
        (resolveTargets_str_noslot fname s hts (hs s rfl))⟩
  | other b =>
    have hb : b = true := ht
    subst hb
    exact ⟨"Target should be a filename to write",
      split_by_cc_error fname _ P src wok _ (resolveTargets_other fname ht)⟩

/-- C3 witness: a truthy non-string target fails with `ValueError`. -/
theorem c3_invalid_target_validation_witness :
    isTruthy (PyTarget.other true) = true ∧
    ∃ msg, split_by_cc ("g.lp") (PyTarget.other true) edge_predicate []
      (fun _ => true) = SplitRun.mk (some (PyErr.valueError msg)) [] [] :=
  ⟨by decide, c3_invalid_target_validation ("g.lp") edge_predicate []
    (fun _ => true) (PyTarget.other true) (by decide) (fun s h => nomatch h)⟩

/-- C4: the claim as stated is false.  Supplying input edge-predicate
`link` and omitting the output edge-predicate does not serialize with
`link`: the output uses the module default `edge` (the written content is
`edge(a,b).`, not `link(a,b).`). -/
theorem c4_counterexample :
    (clean ("g.lp") Option.none (some ("link")) Option.none
      [("link(a,b).")]).outPred ≠ "link" ∧
    (clean ("g.lp") Option.none (some ("link")) Option.none
      [("link(a,b).")]).content = [("edge(a,b).")] := by
  refine ⟨by decide, by decide⟩

/-- C4 (amended): when the caller supplies an input edge-predicate and
omits the output edge-predicate, the output edge-predicate used for
serialization is the module-level default `edge_predicate`, not the
supplied input predicate; the two coincide only when the supplied input
predicate is itself the default. -/
theorem c4_output_predicate_default (fname : String) (target : Option String)
    (p : String) (src : List String) :
    (clean fname target (some p) Option.none src).outPred = edge_predicate := rfl

/-- C5: for every call to the normalizer with no target resource given, the
output is written to the (normalized) input resource itself — and the
modelled normalization is the identity, so the source is overwritten in
place. -/
theorem c5_inplace_target (fname : String) (ep tep : Option String)
    (src : List String) :
    (clean fname Option.none ep tep src).target = normalize_filename fname ∧
    normalize_filename fname = fname := ⟨rfl, rfl⟩

/-- C6: for every successful call to the splitter (single-slot template,
all targets writable), the `i`-th component (0-based, in production order)
is written to the resource obtained by substituting `i` into the template,
and the call returns exactly the sequence of resource names written, in
that order. -/
theorem c6_written_targets (fname P : String) (src : List String)
    (wok : String → Bool) (targets : PyTarget) (tmpl : String)
    (hres : resolveTargets fname targets = Except.ok tmpl)
    (hslots : countSlots tmpl.data = 1)
    (hok : ∀ t, wok t = true) :
    split_by_cc fname targets P src wok =
      SplitRun.mk Option.none
        (splitWrites tmpl P (graph_from_lines src P) 0
          (connectedComponents (graph_from_lines src P)))
        ((List.range' 0 (connectedComponents (graph_from_lines src P)).length).map
          (fmtTarget tmpl)) := by
  rw [split_by_cc_ok fname targets P src wok tmpl hres]
  exact splitLoop_all_ok tmpl P wok _ hslots hok _ 0

/-- C6 witness: three edges forming two components are written to
`out_0.lp` and `out_1.lp`, which are returned in that order. -/
theorem c6_written_targets_witness :
    countSlots (String.data ("out_\x7b\x7d.lp")) = 1 ∧
    split_by_cc ("g.lp") (PyTarget.str ("out_\x7b\x7d.lp")) edge_predicate
        [("edge(a,b)."), ("edge(b,c)."), ("edge(x,y).")] (fun _ => true) =
      SplitRun.mk Option.none
        [(("out_0.lp"), [("edge(x,y).")]), (("out_1.lp"), [("edge(a,b)."), ("edge(b,c).")])]
        [("out_0.lp"), ("out_1.lp")] := by
  refine ⟨by decide, ?_⟩
  rw [c6_written_targets ("g.lp") edge_predicate
    [("edge(a,b)."), ("edge(b,c)."), ("edge(x,y).")] (fun _ => true)
    (PyTarget.str ("out_\x7b\x7d.lp")) ("out_\x7b\x7d.lp")
    rfl (by decide) (fun t => rfl)]
  decide

/-- C7: the splitter writes each component's resource as it is produced;
when writing the `j`-th component fails, the call raises the I/O error and
the resources already written for components `0..j-1` remain written — no
rollback occurs. -/
theorem c7_no_rollback (fname P : String) (src : List String)
    (wok : String → Bool) (targets : PyTarget) (tmpl : String) (j : Nat)
    (hres : resolveTargets fname targets = Except.ok tmpl)
    (hslots : countSlots tmpl.data = 1)
    (hj : j < (connectedComponents (graph_from_lines src P)).length)
    (hok : ∀ i, i < j → wok (fmtTarget tmpl i) = true)
    (hfail : wok (fmtTarget tmpl j) = false) :
    split_by_cc fname targets P src wok =
      SplitRun.mk (some (PyErr.ioError (fmtTarget tmpl j)))
        (splitWrites tmpl P (graph_from_lines src P) 0
          ((connectedComponents (graph_from_lines src P)).take j))
        ((List.range' 0 j).map (fmtTarget tmpl)) := by
  have h0 := splitLoop_fail_at tmpl P wok (graph_from_lines src P) hslots
    (connectedComponents (graph_from_lines src P)) 0 j hj
    (by
      intro i hi
      rw [Nat.zero_add]
      exact hok i hi)
    (by
      rw [Nat.zero_add]
      exact hfail)
  rw [split_by_cc_ok fname targets P src wok tmpl hres, h0, Nat.zero_add]

/-- C7 witness: with `out_1.lp` unwritable, the run fails on component 1
while the file written for component 0 remains. -/
theorem c7_no_rollback_witness :
    (fun t => !(t == ("out_1.lp"))) ("out_1.lp") = false ∧
    split_by_cc ("g.lp") (PyTarget.str ("out_\x7b\x7d.lp")) edge_predicate
        [("edge(a,b)."), ("edge(b,c)."), ("edge(x,y).")]
        (fun t => !(t == ("out_1.lp"))) =
      SplitRun.mk (some (PyErr.ioError ("out_1.lp")))
        [(("out_0.lp"), [("edge(x,y).")])] [("out_0.lp")] := by
  refine ⟨by decide, ?_⟩
  rw [c7_no_rollback ("g.lp") edge_predicate
    [("edge(a,b)."), ("edge(b,c)."), ("edge(x,y).")]
    (fun t => !(t == ("out_1.lp"))) (PyTarget.str ("out_\x7b\x7d.lp"))
    ("out_\x7b\x7d.lp") 1 rfl (by decide) (by decide)
    (by
      intro i hi
      have h0 : i = 0 := Nat.lt_one_iff.mp hi
      subst h0
      decide)
    (by decide)]
  decide

/-- C8: the claim as stated is false.  On the source
`p(a,b). q(a,x). edge(a,b).` the first normalization emits the node
attribute `p` before `q`; re-parsing turns `p(a,b).` into an edge
attribute (its owner pair is now an edge), so the second normalization
emits it after `q` — the two outputs differ byte-wise. -/
theorem c8_counterexample :
    (clean ("g.lp") Option.none (some edge_predicate) (some edge_predicate)
      ((clean ("g.lp") Option.none (some edge_predicate) (some edge_predicate)
        [("p(a,b)."), ("q(a,x)."), ("edge(a,b).")]).content)).content ≠
    (clean ("g.lp") Option.none (some edge_predicate) (some edge_predicate)
      [("p(a,b)."), ("q(a,x)."), ("edge(a,b).")]).content := by
  decide

/-- C8 (amended): for any source whose parsed graph has no node attribute
whose owner and first value form an edge of the graph (and a bare-token
edge predicate), applying the normalizer twice with the same edge-predicate
for input and output produces output byte-identical to applying it once. -/
theorem c8_idempotent_wellformed (fname p : String) (src : List String)
    (hp : plainStr p = true)
    (hcf : collisionFree (graph_from_lines src p)) :
    (clean fname Option.none (some p) (some p)
      ((clean fname Option.none (some p) (some p) src).content)).content =
    (clean fname Option.none (some p) (some p) src).content := by
  have hwf : wellFormed p (graph_from_lines src p) :=
    ⟨graph_from_lines_inv src p, hcf, hp⟩
  show asp_from_graph
      (graph_from_lines (asp_from_graph (graph_from_lines src p) p) p) p =
    asp_from_graph (graph_from_lines src p) p
  exact serialize_build_serialize (graph_from_lines src p) p hwf

/-- C8 witness: a collision-free source normalizes idempotently. -/
theorem c8_idempotent_wellformed_witness :
    plainStr "edge" = true ∧
    collisionFree (graph_from_lines [("edge(a,b)."), ("z(c).")] "edge") ∧
    (clean ("g.lp") Option.none (some ("edge")) (some ("edge"))
      ((clean ("g.lp") Option.none (some ("edge")) (some ("edge"))
        [("edge(a,b)."), ("z(c).")]).content)).content =
    (clean ("g.lp") Option.none (some ("edge")) (some ("edge"))
      [("edge(a,b)."), ("z(c).")]).content :=
  ⟨by decide, by decide, c8_idempotent_wellformed ("g.lp") "edge"
    [("edge(a,b)."), ("z(c).")] (by decide) (by decide)⟩

/-- C9: when the target template is `None` or any falsy value (empty
string, falsy non-string), no validation error is raised; the call behaves
exactly as if the template derived from the source name — base name,
`_{}`, extension — had been passed, and the slot/type validation is
skipped (the error can never be a `ValueError`). -/
theorem c9_falsy_target_derived (fname P : String) (src : List String)
    (wok : String → Bool) (targets : PyTarget)
    (h : isTruthy targets = false) :
    split_by_cc fname targets P src wok =
      split_by_cc fname (PyTarget.str (derivedTemplate fname)) P src wok ∧
    ∀ m, (split_by_cc fname targets P src wok).error ≠
      some (PyErr.valueError m) := by
  have h1 := resolveTargets_falsy fname targets h
  have h2 := resolveTargets_derived_str fname
  constructor
  · rw [split_by_cc_ok fname targets P src wok _ h1,
      split_by_cc_ok fname _ P src wok _ h2]
  · intro m
    rw [split_by_cc_ok fname targets P src wok _ h1]
    exact splitLoop_no_valueError _ P wok _ _ 0 m

/-- C9 witness: a `None` target on `g.lp` behaves as template `g_{}.lp`
and raises no `ValueError`. -/
theorem c9_falsy_target_derived_witness :
    isTruthy PyTarget.null = false ∧
    split_by_cc ("g.lp") PyTarget.null edge_predicate [("edge(a,b).")]
        (fun _ => true) =
      split_by_cc ("g.lp") (PyTarget.str (derivedTemplate ("g.lp")))
        edge_predicate [("edge(a,b).")] (fun _ => true) ∧
    (split_by_cc ("g.lp") PyTarget.null edge_predicate [("edge(a,b).")]
      (fun _ => true)).error ≠ some (PyErr.valueError ("x")) := by
  have h := c9_falsy_target_derived ("g.lp") edge_predicate [("edge(a,b).")]
    (fun _ => true) PyTarget.null (by decide)
  exact ⟨by decide, h.1, h.2 "x"⟩

/-- C10: the splitter parses the source and serializes every component
with one and the same edge-predicate name: each written content is the
serialization, under the very predicate used for parsing, of the induced
subgraph of one of the components — there is no independent output
edge-predicate, so a split can never rename the edge relation. -/
theorem c10_single_predicate (fname : String) (targets : PyTarget) (P : String)
    (src : List String) (wok : String → Bool) :
    ∀ w ∈ (split_by_cc fname targets P src wok).writes,
      ∃ c ∈ connectedComponents (graph_from_lines src P),
        w.2 = asp_from_graph (inducedSubgraph (graph_from_lines src P) c) P := by
  cases hres : resolveTargets fname targets with
  | error e =>
    rw [split_by_cc_error fname targets P src wok e hres]
    simp
  | ok tmpl =>
    rw [split_by_cc_ok fname targets P src wok tmpl hres]
    exact splitLoop_writes_component tmpl P wok _ _ 0

/-- C10 witness: the single write of a one-component split is the
serialization of that component under the parsing predicate. -/
theorem c10_single_predicate_witness :
    ((("g_0.lp"), [("edge(a,b).")]) ∈
      (split_by_cc ("g.lp") PyTarget.null edge_predicate [("edge(a,b).")]
        (fun _ => true)).writes) ∧
    ∃ c ∈ connectedComponents (graph_from_lines [("edge(a,b).")] edge_predicate),
      ((("g_0.lp"), [("edge(a,b).")]) : String × List String).2 =
        asp_from_graph
          (inducedSubgraph (graph_from_lines [("edge(a,b).")] edge_predicate) c)
          edge_predicate :=
  ⟨by decide, c10_single_predicate ("g.lp") PyTarget.null edge_predicate
    [("edge(a,b).")] (fun _ => true) (("g_0.lp"), [("edge(a,b).")]) (by decide)⟩

end Phasme
